import Mathlib

/-!
# Winding strategy for point-in-ring tests

A shallow embedding of `boost/geometry/strategies/agnostic/point_in_poly_winding.hpp`.

* Coordinates are exact: the calculation type is `Int`, so `math::equals` is `=`.
* `get<0>` is the field `x` (primary ordinate), `get<1>` is the field `y` (secondary ordinate).
* The mutable `counter& state` becomes explicit state passing: a function that mutates
  the state returns the new state next to its C++ return value.
* The pieces chosen at compile time from the coordinate-system tag
  (`winding_calculate_count<..., CSTag>`, `winding_side_equal<CSTag>` and
  `strategy_side_type`) are the three fields of `cs_dispatch`.
* The generic (angular) count classifier `winding_calculate_count::apply` takes the
  normalizer `winding_normalize_lon::apply` as a parameter; `normalize_lon_degree` is the
  normalizer for degrees.
* `m_count` is a C++ `int`; a cartesian step adds at most 2 in magnitude to it or resets it
  to 0 (see `contribution_bound`), so it cannot leave the `int` range on fewer than 2^30
  edges and is modelled as `Int`.
-/

namespace within

/-- A point with its two ordinates: `x` is `get<0>`, `y` is `get<1>`. -/
structure Point where
  x : Int
  y : Int
deriving DecidableEq, Repr

/-- The state kept by the strategy: `winding::counter` with its constructor values. -/
structure counter where
  m_count : Int
  m_touches : Bool
deriving DecidableEq, Repr

/-- The constructor `counter()`: count 0, touches false. -/
def counter.fresh : counter := { m_count := 0, m_touches := false }

/-- The method `counter::code()`. -/
def counter.code (state : counter) : Int :=
  if state.m_touches then 0 else if state.m_count = 0 then -1 else 1

/-- The cartesian specialisation `winding_side_equal<cartesian_tag>::apply`. -/
def winding_side_equal_cartesian (point se : Point) (count : Int) : Int :=
  if point.y = se.y then 0
  else if point.y < se.y then -count
  else count

/-- The cartesian specialisation `winding_calculate_count<Point, CalculationType, cartesian_tag>::apply`. -/
def winding_calculate_count_cartesian (p s1 s2 : Int) (eq1 eq2 : Bool) : Int :=
  if eq1 then (if s2 > p then 1 else -1)
  else if eq2 then (if s1 > p then -1 else 1)
  else if s1 < p ∧ s2 > p then 2
  else if s2 < p ∧ s1 > p then -2
  else 0

/-- Modelled from the spec: the side-of-line capability of the cartesian coordinate system
(`strategy_side_type::apply`, whose header is not part of the sources): the sign of the
cross product of `s2 - s1` and `p - s1`; positive is left, negative is right, zero is
collinear. -/
def side_by_triangle (s1 s2 p : Point) : Int :=
  let s := (s2.x - s1.x) * (p.y - s1.y) - (s2.y - s1.y) * (p.x - s1.x)
  if s > 0 then 1 else if s < 0 then -1 else 0

/-- What the coordinate-system tag selects at compile time inside `winding`:
`winding_calculate_count<Point, calculation_type>::apply`, `winding_side_equal<cs_t>::apply`
and `strategy_side_type::apply`. -/
structure cs_dispatch where
  calculate_count : Int → Int → Int → Bool → Bool → Int
  side_equal : Point → Point → Int → Int
  side : Point → Point → Point → Int

/-- The cartesian instantiation with an arbitrary side strategy. -/
def cartesian_with (side : Point → Point → Point → Int) : cs_dispatch :=
  { calculate_count := winding_calculate_count_cartesian
    side_equal := winding_side_equal_cartesian
    side := side }

/-- The cartesian instantiation with the cross-product side strategy. -/
def cartesian : cs_dispatch := cartesian_with side_by_triangle

/-- The function `winding::check_touch`: returns 0 and may set `m_touches`. -/
def winding.check_touch (point seg1 seg2 : Point) (state : counter) : Int × counter :=
  let p := point.y
  let s1 := seg1.y
  let s2 := seg2.y
  if (s1 ≤ p ∧ s2 ≥ p) ∨ (s2 ≤ p ∧ s1 ≥ p) then
    (0, { state with m_touches := true })
  else
    (0, state)

/-- The function `winding::check_segment`: returns the count, the state, and the two
out-parameters `eq1`, `eq2`. -/
def winding.check_segment (cs : cs_dispatch) (point seg1 seg2 : Point) (state : counter) :
    Int × counter × Bool × Bool :=
  let p := point.x
  let s1 := seg1.x
  let s2 := seg2.x
  let eq1 : Bool := decide (s1 = p)
  let eq2 : Bool := decide (s2 = p)
  if eq1 && eq2 then
    let r := winding.check_touch point seg1 seg2 state
    (r.1, r.2, eq1, eq2)
  else
    (cs.calculate_count p s1 s2 eq1 eq2, state, eq1, eq2)

/-- The function `winding::apply`: one step of the driver on the edge `s1 -> s2`.
Returns the C++ return value (continue?) and the state after the step. -/
def winding.apply (cs : cs_dispatch) (point s1 s2 : Point) (state : counter) :
    Bool × counter :=
  let r := winding.check_segment cs point s1 s2 state
  let count := r.1
  let state := r.2.1
  let eq1 := r.2.2.1
  if count ≠ 0 then
    let side :=
      if count = 1 ∨ count = -1 then cs.side_equal point (if eq1 then s1 else s2) count
      else cs.side s1 s2 point
    if side = 0 then
      (false, { m_count := 0, m_touches := true })
    else if side * count > 0 then
      (!state.m_touches, { state with m_count := state.m_count + count })
    else
      (!state.m_touches, state)
  else
    (!state.m_touches, state)

/-- The function `winding::result`. -/
def winding.result (state : counter) : Int := state.code

/-- Classification codes returned by `winding::result`. -/
def INSIDE : Int := 1
/-- Classification code for a point outside the ring. -/
def OUTSIDE : Int := -1
/-- Classification code for a point on the ring. -/
def BOUNDARY : Int := 0

/-- Modelled from the spec: the caller's loop over the ring's edges (the driver that
iterates the segments is not part of the sources). The same state is threaded through
every call of `winding::apply`, in edge order, and the loop stops as soon as `apply`
returns false. -/
def run (cs : cs_dispatch) (point : Point) : List (Point × Point) → counter → counter
  | [], state => state
  | e :: rest, state =>
    let r := winding.apply cs point e.1 e.2 state
    if r.1 then run cs point rest r.2 else r.2

/-- Modelled from the spec: `classify(point, ring_edges, side_of_line)` runs the loop from a
fresh accumulator and reads the classification with `winding::result`. -/
def classify (cs : cs_dispatch) (point : Point) (edges : List (Point × Point)) : Int :=
  winding.result (run cs point edges counter.fresh)

/-- The ring (0,0),(4,0),(4,4),(0,4) as its four directed edges. -/
def square : List (Point × Point) :=
  [(⟨0, 0⟩, ⟨4, 0⟩), (⟨4, 0⟩, ⟨4, 4⟩), (⟨4, 4⟩, ⟨0, 4⟩), (⟨0, 4⟩, ⟨0, 0⟩)]

/-- The ring (0,0),(4,0),(0,4) as its three directed edges. -/
def triangle : List (Point × Point) :=
  [(⟨0, 0⟩, ⟨4, 0⟩), (⟨4, 0⟩, ⟨0, 4⟩), (⟨0, 4⟩, ⟨0, 0⟩)]


/-! ## Definitions used to state and prove the claims -/

/-- Whether one step on the edge `s1 -> s2` from a fresh accumulator records a touch. -/
def touches_edge (cs : cs_dispatch) (p s1 s2 : Point) : Bool :=
  (winding.apply cs p s1 s2 counter.fresh).2.m_touches

/-- What one step on the edge `s1 -> s2` from a fresh accumulator leaves in `m_count`. -/
def contribution (cs : cs_dispatch) (p s1 s2 : Point) : Int :=
  (winding.apply cs p s1 s2 counter.fresh).2.m_count

/-- The cross product of `s2 - s1` and `p - s1`. -/
def cross (s1 s2 p : Point) : Int :=
  (s2.x - s1.x) * (p.y - s1.y) - (s2.y - s1.y) * (p.x - s1.x)

/-- The point lies on the closed segment from `s1` to `s2`: it is collinear with the two
endpoints and inside their bounding box. -/
def on_segment (p s1 s2 : Point) : Prop :=
  cross s1 s2 p = 0
  ∧ min s1.x s2.x ≤ p.x ∧ p.x ≤ max s1.x s2.x
  ∧ min s1.y s2.y ≤ p.y ∧ p.y ≤ max s1.y s2.y

instance (p s1 s2 : Point) : Decidable (on_segment p s1 s2) := by
  unfold on_segment; infer_instance

/-- Closed form of the touch test of one cartesian step (proved equal to the code in
`apply_cartesian_fresh`). -/
def step_touch (p s1 s2 : Point) : Prop :=
  if s1.x = p.x ∧ s2.x = p.x then (s1.y ≤ p.y ∧ p.y ≤ s2.y) ∨ (s2.y ≤ p.y ∧ p.y ≤ s1.y)
  else if s1.x = p.x then p.y = s1.y
  else if s2.x = p.x then p.y = s2.y
  else ((s1.x < p.x ∧ p.x < s2.x) ∨ (s2.x < p.x ∧ p.x < s1.x)) ∧ cross s1 s2 p = 0

/-- Closed form of what one cartesian step adds to the count (proved equal to the code in
`apply_cartesian_fresh`). -/
def step_count (p s1 s2 : Point) : Int :=
  if s1.x = p.x ∧ s2.x = p.x then 0
  else if s1.x = p.x then (if p.y > s1.y then (if s2.x > p.x then 1 else -1) else 0)
  else if s2.x = p.x then (if p.y > s2.y then (if s1.x > p.x then -1 else 1) else 0)
  else if s1.x < p.x ∧ p.x < s2.x then (if cross s1 s2 p > 0 then 2 else 0)
  else if s2.x < p.x ∧ p.x < s1.x then (if cross s1 s2 p < 0 then -2 else 0)
  else 0

/-- The reversed ring: the edges in reverse order, each with its endpoints swapped. -/
def reverse_ring (edges : List (Point × Point)) : List (Point × Point) :=
  edges.reverse.map Prod.swap

/-- Twice the winding number of the triangle `a, b, c` around `p`, read from the three
orientation signs: 2 when `p` is strictly left of all three edges, -2 when it is strictly
right of all three, 0 otherwise. -/
def tri_w (a b c p : Point) : Int :=
  if 0 < cross a b p ∧ 0 < cross b c p ∧ 0 < cross c a p then 2
  else if cross a b p < 0 ∧ cross b c p < 0 ∧ cross c a p < 0 then -2
  else 0

/-- The point is strictly on the interior side of all three edges of the triangle: its three
orientation signs are nonzero and equal to the orientation sign of the triangle. -/
def strictly_inside (a b c p : Point) : Prop :=
  side_by_triangle a b p ≠ 0 ∧ side_by_triangle b c p ≠ 0 ∧ side_by_triangle c a p ≠ 0
  ∧ side_by_triangle a b p = side_by_triangle a b c
  ∧ side_by_triangle b c p = side_by_triangle a b c
  ∧ side_by_triangle c a p = side_by_triangle a b c

instance (a b c p : Point) : Decidable (strictly_inside a b c p) := by
  unfold strictly_inside; infer_instance

/-- The point is on one of the three closed edges of the triangle. -/
def on_triangle (a b c p : Point) : Prop :=
  on_segment p a b ∨ on_segment p b c ∨ on_segment p c a

instance (a b c p : Point) : Decidable (on_triangle a b c p) := by
  unfold on_triangle; infer_instance

/-- The step that decides a run: the first edge on which `winding::apply` returns false,
with the accumulator it was called on; `none` when the loop reaches the end of the list. -/
def deciding_step (cs : cs_dispatch) (point : Point) :
    List (Point × Point) → counter → Option ((Point × Point) × counter)
  | [], _ => none
  | e :: rest, state =>
    let r := winding.apply cs point e.1 e.2 state
    if r.1 then deciding_step cs point rest r.2 else some (e, state)

/-- The count that `winding::check_segment` returns for the edge `e` from `state`. -/
def count_of (cs : cs_dispatch) (point : Point) (e : Point × Point) (state : counter) : Int :=
  (winding.check_segment cs point e.1 e.2 state).1

/-- The endpoint handed to `winding_side_equal` on a magnitude-1 step: `eq1 ? s1 : s2`. -/
def aligned_endpoint (cs : cs_dispatch) (point : Point) (e : Point × Point)
    (state : counter) : Point :=
  if (winding.check_segment cs point e.1 e.2 state).2.2.1 then e.1 else e.2

/-- The step on edge `e` resolves its side through `winding_side_equal`, which returns 0:
the count has magnitude 1 and the equality resolver yields 0. -/
def resolved_by_side_equal (cs : cs_dispatch) (point : Point) (e : Point × Point)
    (state : counter) : Prop :=
  (count_of cs point e state = 1 ∨ count_of cs point e state = -1)
  ∧ cs.side_equal point (aligned_endpoint cs point e state) (count_of cs point e state) = 0

instance (cs : cs_dispatch) (point : Point) (e : Point × Point) (state : counter) :
    Decidable (resolved_by_side_equal cs point e state) := by
  unfold resolved_by_side_equal; infer_instance

/-- A driver that ignores the return value of `winding::apply`: every step of the list (a
point with an edge) is applied, in order, to the same accumulator. -/
def feed (cs : cs_dispatch) : List (Point × Point × Point) → counter → counter
  | [], state => state
  | s :: rest, state => feed cs rest (winding.apply cs s.1 s.2.1 s.2.2 state).2

/-- The steps of one point over an edge list, for `feed`. -/
def steps_of (point : Point) (edges : List (Point × Point)) : List (Point × Point × Point) :=
  edges.map (fun e => (point, e.1, e.2))

/-- The side that `winding::apply` resolves for the edge `e` once its count is nonzero:
`winding_side_equal` on the aligned endpoint when the count is 1 or -1, the side strategy
on the whole edge otherwise. -/
def resolved_side (cs : cs_dispatch) (point : Point) (e : Point × Point) (state : counter) :
    Int :=
  if count_of cs point e state = 1 ∨ count_of cs point e state = -1 then
    cs.side_equal point (aligned_endpoint cs point e state) (count_of cs point e state)
  else cs.side e.1 e.2 point

/-- Modelled from the spec: the Angular Normalizer for degrees
(`math::normalize_spheroidal_coordinates`, called by `winding_normalize_lon::apply` with a
zero latitude; its header is not part of the sources). It maps a longitude difference to the
value congruent to it modulo 360 in the principal range (-180, 180]. -/
def normalize_lon_degree (lon : Int) : Int :=
  let r := lon % 360
  if r > 180 then r - 360 else r

/-- The function `winding_calculate_count::greater` of the generic form; `normalize` is
`winding_normalize_lon::apply`. -/
def winding_calculate_count.greater (normalize : Int → Int) (l r : Int) : Bool :=
  let diff := l - r
  decide (normalize diff > 0)

/-- The function `winding_calculate_count::apply` of the generic (angular) form. -/
def winding_calculate_count.apply (normalize : Int → Int) (p s1 s2 : Int) (eq1 eq2 : Bool) :
    Int :=
  if eq1 then (if winding_calculate_count.greater normalize s2 p then 1 else -1)
  else if eq2 then (if winding_calculate_count.greater normalize s1 p then -1 else 1)
  else if winding_calculate_count.greater normalize p s1
      && winding_calculate_count.greater normalize s2 p then 2
  else if winding_calculate_count.greater normalize p s2
      && winding_calculate_count.greater normalize s1 p then -2
  else 0

/-! ## Helper lemmas -/

/-- A step on a touching edge stops the loop and sets `m_touches`, from any state. -/
theorem apply_touch (cs : cs_dispatch) (p s1 s2 : Point) (st : counter)
    (h : touches_edge cs p s1 s2 = true) :
    (winding.apply cs p s1 s2 st).1 = false ∧ (winding.apply cs p s1 s2 st).2.m_touches = true := by
  revert h
  simp only [touches_edge, winding.apply, winding.check_segment, winding.check_touch,
    counter.fresh]
  split_ifs <;> simp_all

/-- A step on a non-touching edge from an untouched state continues and adds the
contribution of the edge to the count. -/
theorem apply_no_touch (cs : cs_dispatch) (p s1 s2 : Point) (c : Int)
    (h : touches_edge cs p s1 s2 = false) :
    winding.apply cs p s1 s2 ⟨c, false⟩ = (true, ⟨c + contribution cs p s1 s2, false⟩) := by
  revert h
  simp only [touches_edge, contribution, winding.apply, winding.check_segment,
    winding.check_touch, counter.fresh]
  split_ifs <;> simp_all

/-- A run from an untouched state ends touched as soon as one edge touches. -/
theorem run_any_touch (cs : cs_dispatch) (p : Point) (edges : List (Point × Point)) :
    ∀ c : Int, (∃ e ∈ edges, touches_edge cs p e.1 e.2 = true) →
      (run cs p edges ⟨c, false⟩).m_touches = true := by
  induction edges with
  | nil => intro c h; simp at h
  | cons e rest ih =>
    intro c h
    by_cases he : touches_edge cs p e.1 e.2 = true
    · have := apply_touch cs p e.1 e.2 ⟨c, false⟩ he
      simp [run, this.1, this.2]
    · have he2 : touches_edge cs p e.1 e.2 = false := by simpa using he
      have hrest : ∃ e ∈ rest, touches_edge cs p e.1 e.2 = true := by
        obtain ⟨e2, hmem, ht⟩ := h
        rcases List.mem_cons.mp hmem with rfl | hmem
        · exact absurd ht he
        · exact ⟨e2, hmem, ht⟩
      simp only [run, apply_no_touch cs p e.1 e.2 c he2, if_true]
      exact ih _ hrest

/-- A run over edges none of which touches adds up their contributions. -/
theorem run_no_touch (cs : cs_dispatch) (p : Point) (edges : List (Point × Point)) :
    ∀ c : Int, (∀ e ∈ edges, touches_edge cs p e.1 e.2 = false) →
      run cs p edges ⟨c, false⟩
        = ⟨c + (edges.map (fun e => contribution cs p e.1 e.2)).sum, false⟩ := by
  induction edges with
  | nil => intro c _; simp [run]
  | cons e rest ih =>
    intro c h
    have he := h e (List.mem_cons_self _ _)
    have hrest : ∀ e ∈ rest, touches_edge cs p e.1 e.2 = false :=
      fun e2 hmem => h e2 (List.mem_cons_of_mem _ hmem)
    simp only [run, apply_no_touch cs p e.1 e.2 c he, if_true, ih _ hrest,
      List.map_cons, List.sum_cons, add_assoc]

/-- The classification in closed form: BOUNDARY when some edge touches, otherwise decided by
the sum of the edges' contributions. -/
theorem classify_eq (cs : cs_dispatch) (p : Point) (edges : List (Point × Point)) :
    classify cs p edges =
      if ∃ e ∈ edges, touches_edge cs p e.1 e.2 = true then BOUNDARY
      else if (edges.map (fun e => contribution cs p e.1 e.2)).sum = 0 then OUTSIDE
      else INSIDE := by
  by_cases h : ∃ e ∈ edges, touches_edge cs p e.1 e.2 = true
  · have := run_any_touch cs p edges 0 h
    simp [classify, winding.result, counter.code, counter.fresh, this, h, BOUNDARY]
  · have h2 : ∀ e ∈ edges, touches_edge cs p e.1 e.2 = false := by
      intro e he
      by_contra hc
      exact h ⟨e, he, by simpa using hc⟩
    have := run_no_touch cs p edges 0 h2
    simp only [classify, winding.result, counter.code, counter.fresh, this, if_neg h, zero_add]
    simp [OUTSIDE, INSIDE]

/-- The classification is BOUNDARY exactly when some edge touches. -/
theorem classify_boundary_iff (cs : cs_dispatch) (p : Point) (edges : List (Point × Point)) :
    classify cs p edges = BOUNDARY ↔ ∃ e ∈ edges, touches_edge cs p e.1 e.2 = true := by
  rw [classify_eq]
  split_ifs <;> simp_all [BOUNDARY, OUTSIDE, INSIDE]

/-- The side strategy is the sign of `cross`. -/
theorem side_by_triangle_eq (s1 s2 p : Point) :
    side_by_triangle s1 s2 p
      = if cross s1 s2 p > 0 then 1 else if cross s1 s2 p < 0 then -1 else 0 := rfl

/-- The function `check_touch` always returns 0. -/
theorem check_touch_fst (p s1 s2 : Point) (st : counter) :
    (winding.check_touch p s1 s2 st).1 = 0 := by
  simp only [winding.check_touch]; split_ifs <;> rfl

/-- The state after `check_touch`: the count is kept, the flag is or-ed with the closed
interval test on the secondary ordinate. -/
theorem check_touch_snd (p s1 s2 : Point) (st : counter) :
    (winding.check_touch p s1 s2 st).2
      = ⟨st.m_count, st.m_touches ||
          decide ((s1.y ≤ p.y ∧ s2.y ≥ p.y) ∨ (s2.y ≤ p.y ∧ s1.y ≥ p.y))⟩ := by
  simp only [winding.check_touch]; split_ifs with h <;> simp [h]

/-- The closed forms `step_touch` and `step_count` are what the code computes in one
cartesian step from a fresh accumulator. -/
theorem apply_cartesian_fresh (p s1 s2 : Point) :
    (touches_edge cartesian p s1 s2 = true ↔ step_touch p s1 s2)
    ∧ contribution cartesian p s1 s2 = step_count p s1 s2 := by
  simp only [touches_edge, contribution, winding.apply, winding.check_segment, check_touch_fst,
    check_touch_snd, counter.fresh, cartesian, cartesian_with, winding_calculate_count_cartesian,
    winding_side_equal_cartesian, side_by_triangle_eq, step_touch, step_count]
  rcases lt_trichotomy s1.x p.x with h1 | h1 | h1 <;>
  rcases lt_trichotomy s2.x p.x with h2 | h2 | h2
  · simp [h1, h2, h1.ne, h1.not_lt, h2.ne, h2.not_lt, h1.le, h2.le]
  · simp [h1, h2, h1.ne, h1.not_lt, h1.le]
    split_ifs <;> simp_all <;> omega
  · simp [h1, h2, h1.ne, h1.not_lt, h2.ne', h2.not_lt, h1.le, h2.le]
    split_ifs <;> simp_all <;> omega
  · simp [h1, h2, h2.ne, h2.not_lt, h2.le]
    split_ifs <;> simp_all <;> omega
  · simp [h1, h2]
  · simp [h1, h2, h2.ne', h2.not_lt, h2.le]
    split_ifs <;> simp_all <;> omega
  · simp [h1, h2, h1.ne', h1.not_lt, h2.ne, h2.not_lt, h1.le, h2.le]
    split_ifs <;> simp_all <;> omega
  · simp [h1, h2, h1.ne', h1.not_lt, h1.le]
    split_ifs <;> simp_all <;> omega
  · simp [h1, h2, h1.ne', h1.not_lt, h2.ne', h2.not_lt, h1.le, h2.le]

/-- A weighted sum of two numbers with positive weights vanishes only if they have
opposite signs or both vanish. -/
theorem straddle_box (u w d1 d2 : Int) (hu : 0 < u) (hw : 0 < w)
    (h : w * d1 + u * d2 = 0) : (d1 ≤ 0 ∨ d2 ≤ 0) ∧ (0 ≤ d1 ∨ 0 ≤ d2) := by
  constructor
  · by_contra hc
    push_neg at hc
    nlinarith [mul_pos hw hc.1, mul_pos hu hc.2]
  · by_contra hc
    push_neg at hc
    nlinarith [mul_pos hw (neg_pos.2 hc.1), mul_pos hu (neg_pos.2 hc.2)]

/-- The touch test of one cartesian step holds exactly when the point is on the closed
segment. -/
theorem step_touch_iff (p s1 s2 : Point) : step_touch p s1 s2 ↔ on_segment p s1 s2 := by
  obtain ⟨px, py⟩ := p
  obtain ⟨ax, ay⟩ := s1
  obtain ⟨bx, by_⟩ := s2
  simp only [step_touch, on_segment, cross, le_max_iff, min_le_iff]
  by_cases e1 : ax = px <;> by_cases e2 : bx = px
  · subst e1; subst e2
    simp only [and_self, if_true, sub_self, zero_mul, mul_zero, le_refl, true_or, true_and]
    constructor <;> intro h <;> omega
  · subst e1
    have hne : bx - ax ≠ 0 := sub_ne_zero.2 e2
    simp only [e2, and_false, if_false, if_true, sub_self, mul_zero, sub_zero, mul_eq_zero,
      hne, false_or, sub_eq_zero]
    constructor
    · intro h; subst h; simp
    · intro h; exact h.1
  · subst e2
    have hne : bx - ax ≠ 0 := sub_ne_zero.2 (Ne.symm e1)
    have hc : (bx - ax) * (py - ay) - (by_ - ay) * (bx - ax) = (bx - ax) * (py - by_) := by ring
    simp only [e1, false_and, if_false, if_true, hc, mul_eq_zero, hne, false_or, sub_eq_zero]
    constructor
    · intro h; subst h; simp
    · intro h; exact h.1
  · simp only [e1, e2, false_and, if_false]
    constructor
    · rintro ⟨hx, hc⟩
      refine ⟨hc, by omega, by omega, ?_⟩
      rcases hx with ⟨h1, h2⟩ | ⟨h1, h2⟩
      · have := straddle_box (px - ax) (bx - px) (ay - py) (by_ - py) (by omega) (by omega)
          (by linear_combination (-1 : Int) * hc)
        constructor <;> omega
      · have := straddle_box (ax - px) (px - bx) (ay - py) (by_ - py) (by omega) (by omega)
          (by linear_combination hc)
        constructor <;> omega
    · rintro ⟨hc, hx1, hx2, -⟩
      exact ⟨by omega, hc⟩

/-- A cartesian step records a touch exactly when the point is on the closed segment. -/
theorem touches_edge_cartesian_iff (p s1 s2 : Point) :
    touches_edge cartesian p s1 s2 = true ↔ on_segment p s1 s2 :=
  (apply_cartesian_fresh p s1 s2).1.trans (step_touch_iff p s1 s2)

/-- The contribution of a cartesian step in closed form. -/
theorem contribution_cartesian (p s1 s2 : Point) :
    contribution cartesian p s1 s2 = step_count p s1 s2 :=
  (apply_cartesian_fresh p s1 s2).2

/-- One cartesian step from a fresh accumulator leaves a count between -2 and 2. -/
theorem contribution_bound (p s1 s2 : Point) :
    -2 ≤ contribution cartesian p s1 s2 ∧ contribution cartesian p s1 s2 ≤ 2 := by
  rw [contribution_cartesian]
  simp only [step_count]
  split_ifs <;> omega

/-- In the cartesian variant the classification is BOUNDARY exactly when the point is on
some edge of the list. -/
theorem classify_cartesian_boundary_iff (p : Point) (edges : List (Point × Point)) :
    classify cartesian p edges = BOUNDARY ↔ ∃ e ∈ edges, on_segment p e.1 e.2 := by
  rw [classify_boundary_iff]
  simp only [touches_edge_cartesian_iff]

/-- Swapping the endpoints of the edge negates the cross product. -/
theorem cross_swap (s1 s2 p : Point) : cross s2 s1 p = - cross s1 s2 p := by
  simp only [cross]; ring

/-- Being on a closed segment does not depend on the direction of the segment. -/
theorem on_segment_swap (p s1 s2 : Point) : on_segment p s2 s1 ↔ on_segment p s1 s2 := by
  simp only [on_segment]
  rw [cross_swap s1 s2 p, neg_eq_zero, min_comm s2.x, max_comm s2.x, min_comm s2.y,
    max_comm s2.y]

/-- The first endpoint is on the closed segment. -/
theorem on_segment_left (s1 s2 : Point) : on_segment s1 s1 s2 := by
  simp [on_segment, cross]

/-- The second endpoint is on the closed segment. -/
theorem on_segment_right (s1 s2 : Point) : on_segment s2 s1 s2 := by
  refine ⟨?_, ?_⟩
  · simp only [cross]; ring
  · simp

/-- Swapping the endpoints of the edge negates its contribution. -/
theorem step_count_swap (p s1 s2 : Point) : step_count p s2 s1 = - step_count p s1 s2 := by
  simp only [step_count]
  rw [cross_swap s1 s2 p]
  rcases lt_trichotomy s1.x p.x with h1 | h1 | h1 <;>
  rcases lt_trichotomy s2.x p.x with h2 | h2 | h2
  · simp [h1, h2, h1.ne, h1.not_lt, h2.ne, h2.not_lt, h1.le, h2.le]
  · simp [h1, h2, h1.ne, h1.not_lt, h1.le]
    split_ifs <;> simp_all
  · simp [h1, h2, h1.ne, h1.not_lt, h2.ne', h2.not_lt, h1.le, h2.le]
    split_ifs <;> simp_all
  · simp [h1, h2, h2.ne, h2.not_lt, h2.le]
    split_ifs <;> simp_all
  · simp [h1, h2]
  · simp [h1, h2, h2.ne', h2.not_lt, h2.le]
    split_ifs <;> simp_all
  · simp [h1, h2, h1.ne', h1.not_lt, h2.ne, h2.not_lt, h1.le, h2.le]
    split_ifs <;> simp_all
  · simp [h1, h2, h1.ne', h1.not_lt, h1.le]
    split_ifs <;> simp_all
  · simp [h1, h2, h1.ne', h1.not_lt, h2.ne', h2.not_lt, h1.le, h2.le]

/-- A cartesian step on a zero-length edge leaves the count as it was. -/
theorem apply_degenerate (q w : Point) (st : counter) :
    (winding.apply cartesian q w w st).2.m_count = st.m_count := by
  by_cases h : w.x = q.x
  · simp [winding.apply, winding.check_segment, check_touch_fst, check_touch_snd, h]
  · have h1 : ¬ (w.x < q.x ∧ w.x > q.x) := by omega
    simp [winding.apply, winding.check_segment, cartesian, cartesian_with,
      winding_calculate_count_cartesian, h, h1]

/-- The contributions of the reversed ring add up to the negated sum. -/
theorem sum_contribution_reverse_ring (p : Point) (edges : List (Point × Point)) :
    ((reverse_ring edges).map (fun e => contribution cartesian p e.1 e.2)).sum
      = - (edges.map (fun e => contribution cartesian p e.1 e.2)).sum := by
  simp only [contribution_cartesian, reverse_ring]
  induction edges with
  | nil => simp
  | cons e rest ih =>
    simp only [List.reverse_cons, List.map_append, List.map_cons, List.map_nil, List.sum_append,
      List.sum_cons, List.sum_nil, ih, Prod.fst_swap, Prod.snd_swap, step_count_swap p e.1 e.2]
    ring

/-- The point is on an edge of the reversed ring exactly when it is on an edge of the
ring. -/
theorem touch_reverse_ring (p : Point) (edges : List (Point × Point)) :
    (∃ e ∈ reverse_ring edges, on_segment p e.1 e.2) ↔ ∃ e ∈ edges, on_segment p e.1 e.2 := by
  simp only [reverse_ring, List.mem_map, List.mem_reverse]
  constructor
  · rintro ⟨e, ⟨e2, hm, rfl⟩, h⟩
    exact ⟨e2, hm, (on_segment_swap p e2.1 e2.2).1 h⟩
  · rintro ⟨e, hm, h⟩
    exact ⟨e.swap, ⟨e, hm, rfl⟩, (on_segment_swap p e.1 e.2).2 h⟩

/-- The cartesian classification in closed form, with the touch test read as `on_segment`. -/
theorem classify_cartesian_eq (p : Point) (edges : List (Point × Point)) :
    classify cartesian p edges =
      if ∃ e ∈ edges, on_segment p e.1 e.2 then BOUNDARY
      else if (edges.map (fun e => contribution cartesian p e.1 e.2)).sum = 0 then OUTSIDE
      else INSIDE := by
  rw [classify_eq]
  simp only [touches_edge_cartesian_iff]

/-- A cartesian run from a fresh accumulator, for a point on no edge, ends untouched with
the sum of the contributions. -/
theorem run_cartesian_no_touch (p : Point) (edges : List (Point × Point))
    (h : ∀ e ∈ edges, ¬ on_segment p e.1 e.2) :
    run cartesian p edges counter.fresh
      = ⟨(edges.map (fun e => contribution cartesian p e.1 e.2)).sum, false⟩ := by
  have := run_no_touch cartesian p edges 0 (fun e he => by
    have := h e he
    rw [← touches_edge_cartesian_iff] at this
    simpa using this)
  simpa [counter.fresh] using this

/-- The definition `on_segment` agrees with the parametric description of the closed
segment: the point is `s1 + t (s2 - s1)` for a rational `t` between 0 and 1. -/
theorem on_segment_iff_param (p s1 s2 : Point) :
    on_segment p s1 s2 ↔
      ∃ t : ℚ, 0 ≤ t ∧ t ≤ 1 ∧ (p.x : ℚ) = s1.x + t * (s2.x - s1.x)
        ∧ (p.y : ℚ) = s1.y + t * (s2.y - s1.y) := by
  obtain ⟨px, py⟩ := p
  obtain ⟨ax, ay⟩ := s1
  obtain ⟨bx, by_⟩ := s2
  simp only [on_segment, cross, le_max_iff, min_le_iff]
  constructor
  · rintro ⟨hc, hx1, hx2, hy1, hy2⟩
    have hcq : ((bx : ℚ) - ax) * (py - ay) - (by_ - ay) * (px - ax) = 0 := by exact_mod_cast hc
    by_cases hx : ax = bx
    · by_cases hy : ay = by_
      · subst hx; subst hy
        have e1 : px = ax := by omega
        have e2 : py = ay := by omega
        exact ⟨0, le_refl _, zero_le_one, by simp [e1], by simp [e2]⟩
      · subst hx
        have e1 : px = ax := by omega
        subst e1
        have hd : ((by_ : ℚ) - ay) ≠ 0 := by
          intro h; apply hy; have : (by_ : ℚ) = ay := by linarith
          exact_mod_cast this.symm
        refine ⟨(py - ay) / (by_ - ay), ?_, ?_, by simp, by field_simp⟩
        · rcases lt_or_gt_of_ne hy with h | h
          · apply div_nonneg
            · have : ay ≤ py := by omega
              have : (ay : ℚ) ≤ py := by exact_mod_cast this
              linarith
            · have : (ay : ℚ) < by_ := by exact_mod_cast h
              linarith
          · apply div_nonneg_of_nonpos
            · have : py ≤ ay := by omega
              have : (py : ℚ) ≤ ay := by exact_mod_cast this
              linarith
            · have : (by_ : ℚ) < ay := by exact_mod_cast h
              linarith
        · rcases lt_or_gt_of_ne hy with h | h
          · have h' : (ay : ℚ) < by_ := by exact_mod_cast h
            rw [div_le_one (by linarith)]
            have : py ≤ by_ := by omega
            have : (py : ℚ) ≤ by_ := by exact_mod_cast this
            linarith
          · have h' : (by_ : ℚ) < ay := by exact_mod_cast h
            rw [div_le_one_of_neg (by linarith)]
            have : by_ ≤ py := by omega
            have : (by_ : ℚ) ≤ py := by exact_mod_cast this
            linarith
    · have hd : ((bx : ℚ) - ax) ≠ 0 := by
        intro h; apply hx; have : (bx : ℚ) = ax := by linarith
        exact_mod_cast this.symm
      refine ⟨(px - ax) / (bx - ax), ?_, ?_, by field_simp, ?_⟩
      · rcases lt_or_gt_of_ne hx with h | h
        · apply div_nonneg
          · have : ax ≤ px := by omega
            have : (ax : ℚ) ≤ px := by exact_mod_cast this
            linarith
          · have : (ax : ℚ) < bx := by exact_mod_cast h
            linarith
        · apply div_nonneg_of_nonpos
          · have : px ≤ ax := by omega
            have : (px : ℚ) ≤ ax := by exact_mod_cast this
            linarith
          · have : (bx : ℚ) < ax := by exact_mod_cast h
            linarith
      · rcases lt_or_gt_of_ne hx with h | h
        · have h' : (ax : ℚ) < bx := by exact_mod_cast h
          rw [div_le_one (by linarith)]
          have : px ≤ bx := by omega
          have : (px : ℚ) ≤ bx := by exact_mod_cast this
          linarith
        · have h' : (bx : ℚ) < ax := by exact_mod_cast h
          rw [div_le_one_of_neg (by linarith)]
          have : bx ≤ px := by omega
          have : (bx : ℚ) ≤ px := by exact_mod_cast this
          linarith
      · field_simp
        linarith
  · rintro ⟨t, ht0, ht1, hx, hy⟩
    have h1t : 0 ≤ 1 - t := by linarith
    refine ⟨?_, ?_, ?_, ?_, ?_⟩
    · have : ((bx : ℚ) - ax) * (py - ay) - (by_ - ay) * (px - ax) = 0 := by
        rw [hx, hy]; ring
      exact_mod_cast this
    · by_contra hc
      push_neg at hc
      have h1 : (px : ℚ) < ax := by exact_mod_cast hc.1
      have h2 : (px : ℚ) < bx := by exact_mod_cast hc.2
      nlinarith [mul_nonneg ht0 (sub_nonneg.2 h2.le), mul_nonneg h1t (sub_nonneg.2 h1.le)]
    · by_contra hc
      push_neg at hc
      have h1 : (ax : ℚ) < px := by exact_mod_cast hc.1
      have h2 : (bx : ℚ) < px := by exact_mod_cast hc.2
      nlinarith [mul_nonneg ht0 (sub_nonneg.2 h2.le), mul_nonneg h1t (sub_nonneg.2 h1.le)]
    · by_contra hc
      push_neg at hc
      have h1 : (py : ℚ) < ay := by exact_mod_cast hc.1
      have h2 : (py : ℚ) < by_ := by exact_mod_cast hc.2
      nlinarith [mul_nonneg ht0 (sub_nonneg.2 h2.le), mul_nonneg h1t (sub_nonneg.2 h1.le)]
    · by_contra hc
      push_neg at hc
      have h1 : (ay : ℚ) < py := by exact_mod_cast hc.1
      have h2 : (by_ : ℚ) < py := by exact_mod_cast hc.2
      nlinarith [mul_nonneg ht0 (sub_nonneg.2 h2.le), mul_nonneg h1t (sub_nonneg.2 h1.le)]

/-- The three cross products of a point against the edges of a triangle, weighted by the
primary offsets of the opposite vertices, cancel. -/
theorem cross_identity_x (a b c p : Point) :
    cross a b p * (c.x - p.x) + cross b c p * (a.x - p.x) + cross c a p * (b.x - p.x) = 0 := by
  simp only [cross]; ring

/-- Trichotomy of two integers, with the truth value of each comparison made explicit. -/
theorem int_trichotomy (x y : Int) :
    (x < y ∧ ¬ x = y ∧ ¬ y < x ∧ x - y < 0) ∨ (x = y ∧ ¬ x < y ∧ ¬ y < x ∧ x - y = 0)
      ∨ (y < x ∧ ¬ x = y ∧ ¬ x < y ∧ 0 < x - y) := by
  omega

/-- The sign of a product of two integers from the signs of the factors. -/
theorem mul_sign (u v : Int) (hu : u < 0 ∨ u = 0 ∨ 0 < u) (hv : v < 0 ∨ v = 0 ∨ 0 < v) :
    (u * v < 0 ∧ ((u < 0 ∧ 0 < v) ∨ (0 < u ∧ v < 0)))
    ∨ (u * v = 0 ∧ (u = 0 ∨ v = 0))
    ∨ (0 < u * v ∧ ((u < 0 ∧ v < 0) ∨ (0 < u ∧ 0 < v))) := by
  rcases hu with hu | hu | hu <;> rcases hv with hv | hv | hv
  · exact Or.inr (Or.inr ⟨mul_pos_of_neg_of_neg hu hv, Or.inl ⟨hu, hv⟩⟩)
  · exact Or.inr (Or.inl ⟨by rw [hv, mul_zero], Or.inr hv⟩)
  · exact Or.inl ⟨mul_neg_of_neg_of_pos hu hv, Or.inl ⟨hu, hv⟩⟩
  · exact Or.inr (Or.inl ⟨by rw [hu, zero_mul], Or.inl hu⟩)
  · exact Or.inr (Or.inl ⟨by rw [hu, zero_mul], Or.inl hu⟩)
  · exact Or.inr (Or.inl ⟨by rw [hu, zero_mul], Or.inl hu⟩)
  · exact Or.inl ⟨mul_neg_of_pos_of_neg hu hv, Or.inr ⟨hu, hv⟩⟩
  · exact Or.inr (Or.inl ⟨by rw [hv, mul_zero], Or.inr hv⟩)
  · exact Or.inr (Or.inr ⟨mul_pos hu hv, Or.inr ⟨hu, hv⟩⟩)

/-- The cross product when the first endpoint shares the primary ordinate of the point. -/
theorem cross_of_eq1 (s1 s2 p : Point) (h : s1.x = p.x) :
    cross s1 s2 p = (p.y - s1.y) * (s2.x - p.x) := by
  simp only [cross, h]; ring

/-- The cross product when the second endpoint shares the primary ordinate of the point. -/
theorem cross_of_eq2 (s1 s2 p : Point) (h : s2.x = p.x) :
    cross s1 s2 p = -((p.y - s2.y) * (s1.x - p.x)) := by
  simp only [cross, h]; ring

set_option maxHeartbeats 4000000 in
/-- The contributions of the three edges of a triangle whose vertices are sorted by primary
ordinate add up to `tri_w`, for a point on none of the edges. -/
theorem triangle_sum_sorted (a b c p : Point) (h1 : a.x ≤ b.x) (h2 : b.x ≤ c.x)
    (hab : ¬ step_touch p a b) (hbc : ¬ step_touch p b c) (hca : ¬ step_touch p c a) :
    step_count p a b + step_count p b c + step_count p c a = tri_w a b c p := by
  have Ix := cross_identity_x a b c p
  have Dab : cross a b p = (b.x - a.x) * (p.y - a.y) - (b.y - a.y) * (p.x - a.x) := rfl
  have Dbc : cross b c p = (c.x - b.x) * (p.y - b.y) - (c.y - b.y) * (p.x - b.x) := rfl
  have Dca : cross c a p = (a.x - c.x) * (p.y - c.y) - (a.y - c.y) * (p.x - c.x) := rfl
  have P1 := mul_sign (cross a b p) (c.x - p.x) (by omega) (by omega)
  have P2 := mul_sign (cross b c p) (a.x - p.x) (by omega) (by omega)
  have P3 := mul_sign (cross c a p) (b.x - p.x) (by omega) (by omega)
  simp only [step_touch, step_count, tri_w, gt_iff_lt] at hab hbc hca ⊢
  rcases int_trichotomy a.x p.x with ⟨ha1, ha2, ha3, ha4⟩ | ⟨ha1, ha2, ha3, ha4⟩ | ⟨ha1, ha2, ha3, ha4⟩ <;>
  rcases int_trichotomy b.x p.x with ⟨hb1, hb2, hb3, hb4⟩ | ⟨hb1, hb2, hb3, hb4⟩ | ⟨hb1, hb2, hb3, hb4⟩ <;>
  rcases int_trichotomy c.x p.x with ⟨hc1, hc2, hc3, hc4⟩ | ⟨hc1, hc2, hc3, hc4⟩ | ⟨hc1, hc2, hc3, hc4⟩ <;>
  first
  | (exfalso; omega)
  | (rcases int_trichotomy (cross a b p) 0 with ⟨oab1, oab2, oab3, -⟩ | ⟨oab1, oab2, oab3, -⟩ | ⟨oab1, oab2, oab3, -⟩ <;>
     rcases int_trichotomy (cross b c p) 0 with ⟨obc1, obc2, obc3, -⟩ | ⟨obc1, obc2, obc3, -⟩ | ⟨obc1, obc2, obc3, -⟩ <;>
     rcases int_trichotomy (cross c a p) 0 with ⟨oca1, oca2, oca3, -⟩ | ⟨oca1, oca2, oca3, -⟩ | ⟨oca1, oca2, oca3, -⟩ <;>
     simp only [ha1, ha2, ha3, hb1, hb2, hb3, hc1, hc2, hc3, oab1, oab2, oab3, obc1, obc2, obc3,
       oca1, oca2, oca3, true_and, and_true, false_and, and_false, if_true, if_false, true_or,
       or_true, false_or, or_false, not_true_eq_false, not_false_eq_true, and_self, add_zero,
       zero_add] at hab hbc hca ⊢ <;>
     first
     | omega
     | (split_ifs <;> omega)
     | (have E1 := cross_of_eq2 a b p hb1
        have E2 := cross_of_eq1 b c p hb1
        have Q1 := mul_sign (p.y - b.y) (a.x - p.x) (by omega) (by omega)
        have Q2 := mul_sign (p.y - b.y) (c.x - p.x) (by omega) (by omega)
        split_ifs <;> omega)
     | (have E1 := cross_of_eq1 a b p ha1
        have Q1 := mul_sign (p.y - a.y) (b.x - p.x) (by omega) (by omega)
        omega))

/-- The value `tri_w` is invariant under rotating the vertices. -/
theorem tri_w_rotate (a b c p : Point) : tri_w b c a p = tri_w a b c p := by
  simp only [tri_w]
  split_ifs <;> first | rfl | omega

/-- The value `tri_w` is negated by reversing the orientation of the triangle. -/
theorem tri_w_swap (a b c p : Point) : tri_w a c b p = - tri_w a b c p := by
  simp only [tri_w]
  rw [cross_swap c a p, cross_swap b c p, cross_swap a b p]
  split_ifs <;> first | rfl | omega

/-- The touch test does not depend on the direction of the edge. -/
theorem step_touch_swap (p s1 s2 : Point) : step_touch p s2 s1 ↔ step_touch p s1 s2 := by
  rw [step_touch_iff, step_touch_iff, on_segment_swap]

/-- The contributions of the three edges of any triangle add up to `tri_w`, for a point on
none of the edges. -/
theorem triangle_sum (a b c p : Point)
    (hab : ¬ on_segment p a b) (hbc : ¬ on_segment p b c) (hca : ¬ on_segment p c a) :
    step_count p a b + step_count p b c + step_count p c a = tri_w a b c p := by
  rw [← step_touch_iff] at hab hbc hca
  have hba : ¬ step_touch p b a := fun h => hab ((step_touch_swap p a b).1 h)
  have hcb : ¬ step_touch p c b := fun h => hbc ((step_touch_swap p b c).1 h)
  have hac : ¬ step_touch p a c := fun h => hca ((step_touch_swap p c a).1 h)
  have sab := step_count_swap p a b
  have sbc := step_count_swap p b c
  have sca := step_count_swap p c a
  rcases le_total a.x b.x with h1 | h1 <;> rcases le_total b.x c.x with h2 | h2 <;>
    rcases le_total a.x c.x with h3 | h3
  · exact triangle_sum_sorted a b c p h1 h2 hab hbc hca
  · exact triangle_sum_sorted a b c p h1 h2 hab hbc hca
  · -- a ≤ c ≤ b
    have := triangle_sum_sorted a c b p h3 h2 hac hcb hba
    rw [tri_w_swap] at this
    omega
  · -- c ≤ a ≤ b
    have := triangle_sum_sorted c a b p h3 h1 hca hab hbc
    rw [tri_w_rotate b c a, tri_w_rotate a b c] at this
    omega
  · -- b ≤ a ≤ c
    have := triangle_sum_sorted b a c p h1 h3 hba hac hcb
    rw [tri_w_swap, tri_w_rotate a b c] at this
    omega
  · -- b ≤ c ≤ a
    have := triangle_sum_sorted b c a p h2 h3 hbc hca hab
    rw [tri_w_rotate a b c] at this
    omega
  · -- c ≤ b ≤ a
    have := triangle_sum_sorted c b a p h2 h1 hcb hba hac
    rw [tri_w_swap, tri_w_rotate b c a, tri_w_rotate a b c] at this
    omega
  · have := triangle_sum_sorted c b a p h2 h1 hcb hba hac
    rw [tri_w_swap, tri_w_rotate b c a, tri_w_rotate a b c] at this
    omega

/-- The three cross products of a point against the edges of a triangle add up to the
cross product of the triangle. -/
theorem cross_sum (a b c p : Point) :
    cross a b p + cross b c p + cross c a p = cross a b c := by
  simp only [cross]; ring

/-- The three possible values of the side strategy, with the sign of `cross` for each. -/
theorem side_by_triangle_cases (s1 s2 p : Point) :
    (cross s1 s2 p < 0 ∧ side_by_triangle s1 s2 p = -1)
    ∨ (cross s1 s2 p = 0 ∧ side_by_triangle s1 s2 p = 0)
    ∨ (0 < cross s1 s2 p ∧ side_by_triangle s1 s2 p = 1) := by
  rw [side_by_triangle_eq]
  rcases lt_trichotomy (cross s1 s2 p) 0 with h | h | h
  · left; simp [h, h.not_lt]
  · right; left; simp [h]
  · right; right; simp [h]

/-- The state that `winding::check_segment` leaves behind. -/
theorem check_segment_state (cs : cs_dispatch) (p s1 s2 : Point) (st : counter) :
    (winding.check_segment cs p s1 s2 st).2.1
      = if s1.x = p.x ∧ s2.x = p.x then
          ⟨st.m_count, st.m_touches ||
            decide ((s1.y ≤ p.y ∧ s2.y ≥ p.y) ∨ (s2.y ≤ p.y ∧ s1.y ≥ p.y))⟩
        else st := by
  simp only [winding.check_segment]
  by_cases h1 : s1.x = p.x <;> by_cases h2 : s2.x = p.x <;>
    simp [h1, h2, check_touch_snd]

/-- The count of an edge with both endpoints on the primary ordinate of the point is 0. -/
theorem count_of_aligned (cs : cs_dispatch) (p s1 s2 : Point) (st : counter)
    (h1 : s1.x = p.x) (h2 : s2.x = p.x) : count_of cs p (s1, s2) st = 0 := by
  simp [count_of, winding.check_segment, h1, h2, check_touch_fst]

/-- The count of an edge that is not aligned on both endpoints is what the count classifier
returns. -/
theorem count_of_not_aligned (cs : cs_dispatch) (p s1 s2 : Point) (st : counter)
    (h : ¬ (s1.x = p.x ∧ s2.x = p.x)) :
    count_of cs p (s1, s2) st
      = cs.calculate_count p.x s1.x s2.x (decide (s1.x = p.x)) (decide (s2.x = p.x)) := by
  simp only [count_of, winding.check_segment]
  by_cases h1 : s1.x = p.x <;> by_cases h2 : s2.x = p.x <;> simp_all

/-- One step of the driver, written with the count, the resolved side and the state left
by `check_segment`. -/
theorem apply_eq (cs : cs_dispatch) (p s1 s2 : Point) (st : counter) :
    winding.apply cs p s1 s2 st =
      if count_of cs p (s1, s2) st = 0 then
        (!(winding.check_segment cs p s1 s2 st).2.1.m_touches,
          (winding.check_segment cs p s1 s2 st).2.1)
      else if resolved_side cs p (s1, s2) st = 0 then (false, ⟨0, true⟩)
      else if resolved_side cs p (s1, s2) st * count_of cs p (s1, s2) st > 0 then
        (!(winding.check_segment cs p s1 s2 st).2.1.m_touches,
          ⟨(winding.check_segment cs p s1 s2 st).2.1.m_count + count_of cs p (s1, s2) st,
            (winding.check_segment cs p s1 s2 st).2.1.m_touches⟩)
      else
        (!(winding.check_segment cs p s1 s2 st).2.1.m_touches,
          (winding.check_segment cs p s1 s2 st).2.1) := by
  simp only [winding.apply, count_of, resolved_side, aligned_endpoint]
  split_ifs <;> first | rfl | (exfalso; simp_all)

/-- The return value of a step is the negation of the flag after the step. -/
theorem apply_fst (cs : cs_dispatch) (p s1 s2 : Point) (st : counter) :
    (winding.apply cs p s1 s2 st).1 = !(winding.apply cs p s1 s2 st).2.m_touches := by
  rw [apply_eq]
  split_ifs <;> rfl

/-- A step never clears the flag. -/
theorem apply_touches_mono (cs : cs_dispatch) (p s1 s2 : Point) (st : counter)
    (h : st.m_touches = true) : (winding.apply cs p s1 s2 st).2.m_touches = true := by
  rw [apply_eq, check_segment_state]
  split_ifs <;> simp [h]

/-- Feeding steps to a touched accumulator leaves it touched. -/
theorem feed_touched (cs : cs_dispatch) (steps : List (Point × Point × Point)) :
    ∀ st : counter, st.m_touches = true → (feed cs steps st).m_touches = true := by
  induction steps with
  | nil => intro st h; exact h
  | cons s rest ih =>
    intro st h
    exact ih _ (apply_touches_mono cs s.1 s.2.1 s.2.2 st h)

/-- A run from a touched accumulator ends touched. -/
theorem run_touched (cs : cs_dispatch) (p : Point) (edges : List (Point × Point))
    (st : counter) (h : st.m_touches = true) : (run cs p edges st).m_touches = true := by
  cases edges with
  | nil => exact h
  | cons e rest =>
    have h1 := apply_touches_mono cs p e.1 e.2 st h
    have h2 := apply_fst cs p e.1 e.2 st
    simp only [run, h2, h1, Bool.not_true, Bool.false_eq_true, if_false]

/-- The driver with early stop and the driver that feeds every edge end in states with the
same flag, and with the same count when the flag is not set. -/
theorem run_feed (cs : cs_dispatch) (p : Point) (edges : List (Point × Point)) :
    ∀ st : counter,
      (run cs p edges st).m_touches = (feed cs (steps_of p edges) st).m_touches
      ∧ ((run cs p edges st).m_touches = false →
          run cs p edges st = feed cs (steps_of p edges) st) := by
  induction edges with
  | nil => intro st; exact ⟨rfl, fun _ => rfl⟩
  | cons e rest ih =>
    intro st
    have h2 := apply_fst cs p e.1 e.2 st
    by_cases ht : (winding.apply cs p e.1 e.2 st).2.m_touches = true
    · have hf := feed_touched cs (steps_of p rest) _ ht
      simp only [run, steps_of, List.map_cons, feed, h2, ht, Bool.not_true, Bool.false_eq_true,
        if_false]
      simp only [steps_of] at hf
      simp [hf]
    · have ht2 : (winding.apply cs p e.1 e.2 st).2.m_touches = false := by simpa using ht
      simp only [run, steps_of, List.map_cons, feed, h2, ht2, Bool.not_false, if_true]
      exact ih _

/-- A touch recorded by a step from an untouched state: the count is kept when the edge is
aligned on both endpoints, and is 0 otherwise. -/
theorem apply_touched_count (cs : cs_dispatch) (p s1 s2 : Point) (st : counter)
    (h : st.m_touches = false) (ht : (winding.apply cs p s1 s2 st).2.m_touches = true) :
    if s1.x = p.x ∧ s2.x = p.x then (winding.apply cs p s1 s2 st).2.m_count = st.m_count
    else (winding.apply cs p s1 s2 st).2.m_count = 0 := by
  by_cases ha : s1.x = p.x ∧ s2.x = p.x
  · have hc := count_of_aligned cs p s1 s2 st ha.1 ha.2
    rw [if_pos ha, apply_eq, if_pos hc, check_segment_state, if_pos ha]
  · rw [if_neg ha]
    revert ht
    rw [apply_eq, check_segment_state, if_neg ha]
    split_ifs <;> simp [h]

/-- A run that ends touched, from an untouched state: the step that decided it, and the
count it left. -/
theorem run_touched_count (cs : cs_dispatch) (p : Point) (edges : List (Point × Point)) :
    ∀ st : counter, st.m_touches = false → (run cs p edges st).m_touches = true →
      ∃ e prev, deciding_step cs p edges st = some (e, prev) ∧ prev.m_touches = false
        ∧ if e.1.x = p.x ∧ e.2.x = p.x then (run cs p edges st).m_count = prev.m_count
          else (run cs p edges st).m_count = 0 := by
  induction edges with
  | nil => intro st h ht; simp [run, h] at ht
  | cons e rest ih =>
    intro st h ht
    have h2 := apply_fst cs p e.1 e.2 st
    by_cases hs : (winding.apply cs p e.1 e.2 st).2.m_touches = true
    · refine ⟨e, st, ?_, h, ?_⟩
      · simp [deciding_step, h2, hs]
      · have := apply_touched_count cs p e.1 e.2 st h hs
        simpa [run, h2, hs] using this
    · have hs2 : (winding.apply cs p e.1 e.2 st).2.m_touches = false := by simpa using hs
      have hr : run cs p (e :: rest) st = run cs p rest (winding.apply cs p e.1 e.2 st).2 := by
        simp [run, h2, hs2]
      have hd : deciding_step cs p (e :: rest) st
          = deciding_step cs p rest (winding.apply cs p e.1 e.2 st).2 := by
        simp [deciding_step, h2, hs2]
      rw [hr] at ht ⊢
      rw [hd]
      exact ih _ hs2 ht

/-- The cartesian count classifier in closed form on the primary ordinates. -/
theorem calculate_count_cartesian_eq (p s1 s2 : Int) :
    winding_calculate_count_cartesian p s1 s2 (decide (s1 = p)) (decide (s2 = p))
      = if s1 = p then (if p < s2 then 1 else -1)
        else if s2 = p then (if p < s1 then -1 else 1)
        else if s1 < p ∧ p < s2 then 2
        else if s2 < p ∧ p < s1 then -2
        else 0 := by
  simp only [winding_calculate_count_cartesian, decide_eq_true_eq, gt_iff_lt]

/-- The degree normalizer has period 360. -/
theorem normalize_lon_degree_add (d : Int) :
    normalize_lon_degree (d + 360) = normalize_lon_degree d := by
  simp only [normalize_lon_degree]
  split_ifs <;> omega

/-- The degree normalizer has period 360, downwards. -/
theorem normalize_lon_degree_sub (d : Int) :
    normalize_lon_degree (d - 360) = normalize_lon_degree d := by
  simp only [normalize_lon_degree]
  split_ifs <;> omega

/-- The degree normalizer maps into the principal range (-180, 180] and keeps the class
modulo 360. -/
theorem normalize_lon_degree_range (d : Int) :
    -180 < normalize_lon_degree d ∧ normalize_lon_degree d ≤ 180
    ∧ (normalize_lon_degree d - d) % 360 = 0 := by
  simp only [normalize_lon_degree]
  split_ifs <;> omega

/-- The degree normalizer is the identity strictly inside the half period. -/
theorem normalize_lon_degree_id (d : Int) (h1 : -180 < d) (h2 : d ≤ 180) :
    normalize_lon_degree d = d := by
  simp only [normalize_lon_degree]
  split_ifs <;> omega

/-- The normalized comparison does not see a shift of either argument by 360. -/
theorem greater_shift (l r : Int) :
    winding_calculate_count.greater normalize_lon_degree (l + 360) r
        = winding_calculate_count.greater normalize_lon_degree l r
    ∧ winding_calculate_count.greater normalize_lon_degree (l - 360) r
        = winding_calculate_count.greater normalize_lon_degree l r
    ∧ winding_calculate_count.greater normalize_lon_degree l (r + 360)
        = winding_calculate_count.greater normalize_lon_degree l r
    ∧ winding_calculate_count.greater normalize_lon_degree l (r - 360)
        = winding_calculate_count.greater normalize_lon_degree l r := by
  simp only [winding_calculate_count.greater]
  have e1 : l + 360 - r = (l - r) + 360 := by ring
  have e2 : l - 360 - r = (l - r) - 360 := by ring
  have e3 : l - (r + 360) = (l - r) - 360 := by ring
  have e4 : l - (r - 360) = (l - r) + 360 := by ring
  rw [e1, e2, e3, e4, normalize_lon_degree_add, normalize_lon_degree_sub]
  exact ⟨rfl, rfl, rfl, rfl⟩

/-- Under a normalizer that is the identity on the difference, the normalized comparison is
the direct one. -/
theorem greater_of_id (normalize : Int → Int) (l r : Int) (h : normalize (l - r) = l - r) :
    winding_calculate_count.greater normalize l r = decide (l > r) := by
  simp only [winding_calculate_count.greater, h]
  by_cases hlr : l > r
  · simp [hlr]
  · simp [hlr]

/-- A cartesian step on an edge of count 1 or -1: the count is added when the point is
strictly above the aligned endpoint on the secondary ordinate, nothing changes when it is
strictly below, and the step records a touch when the two ordinates are equal. -/
theorem magnitude_one_step (side : Point → Point → Point → Int) (p s1 s2 : Point)
    (st : counter)
    (hc : count_of (cartesian_with side) p (s1, s2) st = 1
      ∨ count_of (cartesian_with side) p (s1, s2) st = -1) :
    ((aligned_endpoint (cartesian_with side) p (s1, s2) st).y < p.y →
      (winding.apply (cartesian_with side) p s1 s2 st).2
        = ⟨st.m_count + count_of (cartesian_with side) p (s1, s2) st, st.m_touches⟩)
    ∧ (p.y < (aligned_endpoint (cartesian_with side) p (s1, s2) st).y →
      (winding.apply (cartesian_with side) p s1 s2 st).2 = st)
    ∧ (p.y = (aligned_endpoint (cartesian_with side) p (s1, s2) st).y →
      (winding.apply (cartesian_with side) p s1 s2 st).2 = ⟨0, true⟩) := by
  have hne : count_of (cartesian_with side) p (s1, s2) st ≠ 0 := by omega
  have ha : ¬ (s1.x = p.x ∧ s2.x = p.x) :=
    fun h => hne (count_of_aligned (cartesian_with side) p s1 s2 st h.1 h.2)
  have hside : resolved_side (cartesian_with side) p (s1, s2) st
      = winding_side_equal_cartesian p (aligned_endpoint (cartesian_with side) p (s1, s2) st)
          (count_of (cartesian_with side) p (s1, s2) st) := by
    rw [resolved_side, if_pos hc]; rfl
  rw [apply_eq, if_neg hne, hside, check_segment_state, if_neg ha]
  generalize aligned_endpoint (cartesian_with side) p (s1, s2) st = se
  generalize count_of (cartesian_with side) p (s1, s2) st = c at hc hne
  refine ⟨fun h => ?_, fun h => ?_, fun h => ?_⟩
  · have e : winding_side_equal_cartesian p se c = c := by
      simp [winding_side_equal_cartesian, h.ne', h.not_lt]
    rw [e]
    rcases hc with rfl | rfl <;> simp
  · have e : winding_side_equal_cartesian p se c = -c := by
      simp [winding_side_equal_cartesian, h, h.ne]
    rw [e]
    rcases hc with rfl | rfl <;> simp
  · have e : winding_side_equal_cartesian p se c = 0 := by
      simp [winding_side_equal_cartesian, h]
    rw [e]
    simp

/-- The flag after a step from an untouched accumulator is the touch test of the edge,
whatever count the accumulator holds. -/
theorem apply_untouched_flag (cs : cs_dispatch) (p s1 s2 : Point) (c : Int) :
    (winding.apply cs p s1 s2 ⟨c, false⟩).2.m_touches = touches_edge cs p s1 s2 := by
  by_cases h : touches_edge cs p s1 s2 = true
  · rw [(apply_touch cs p s1 s2 ⟨c, false⟩ h).2, h]
  · have h2 : touches_edge cs p s1 s2 = false := by simpa using h
    rw [apply_no_touch cs p s1 s2 c h2, h2]

/-! ## The claims -/

/-- C1: `winding::result` returns one of the three codes; it is 0 (BOUNDARY) exactly when
`touches` is true, and otherwise -1 (OUTSIDE) when the count is 0 and 1 (INSIDE) when it
is not; a fresh accumulator classifies as OUTSIDE. -/
theorem result_rule (state : counter) :
    (winding.result state = BOUNDARY ∨ winding.result state = OUTSIDE
        ∨ winding.result state = INSIDE)
    ∧ (winding.result state = BOUNDARY ↔ state.m_touches = true)
    ∧ (state.m_touches = false → state.m_count = 0 → winding.result state = OUTSIDE)
    ∧ (state.m_touches = false → state.m_count ≠ 0 → winding.result state = INSIDE)
    ∧ winding.result counter.fresh = OUTSIDE := by
  obtain ⟨c, t⟩ := state
  cases t <;> by_cases h : c = 0 <;>
    simp [winding.result, counter.code, counter.fresh, BOUNDARY, OUTSIDE, INSIDE, h]

/-- C1, at a concrete state: the accumulator with count 2 and no touch classifies as INSIDE. -/
theorem result_rule_witness :
    (⟨2, false⟩ : counter).m_touches = false ∧ (⟨2, false⟩ : counter).m_count ≠ 0
    ∧ winding.result ⟨2, false⟩ = INSIDE :=
  ⟨rfl, by decide, (result_rule ⟨2, false⟩).2.2.2.1 rfl (by decide)⟩

/-- C3: in the cartesian variant with the cross-product side, if the point lies on at least
one edge of the list, taken as a closed segment (endpoints included, a zero-length edge equal
to the point included), then `classify` returns BOUNDARY, whatever the other edges are and
wherever that edge stands in the list. -/
theorem on_edge_is_boundary (p : Point) (edges : List (Point × Point))
    (h : ∃ e ∈ edges, on_segment p e.1 e.2) : classify cartesian p edges = BOUNDARY :=
  (classify_cartesian_boundary_iff p edges).2 h

/-- C3, at concrete inputs: (4,2) lies on the right edge of the square, which is the second
edge of the list, and is classified BOUNDARY. -/
theorem on_edge_is_boundary_witness :
    (∃ e ∈ square, on_segment ⟨4, 2⟩ e.1 e.2) ∧ classify cartesian ⟨4, 2⟩ square = BOUNDARY :=
  ⟨by decide, on_edge_is_boundary ⟨4, 2⟩ square (by decide)⟩

/-- C4: for a triangle `a, b, c` given as the ring `a -> b, b -> c, c -> a` and every point,
`classify` returns BOUNDARY iff the point is on one of the three closed edges, INSIDE iff its
three orientation signs are nonzero and equal to the orientation sign of the triangle, and
OUTSIDE otherwise. (The proof does not use the non-degeneracy hypothesis.) -/
theorem triangle_classification (a b c p : Point) (hT : cross a b c ≠ 0) :
    (classify cartesian p [(a, b), (b, c), (c, a)] = BOUNDARY ↔ on_triangle a b c p)
    ∧ (classify cartesian p [(a, b), (b, c), (c, a)] = INSIDE ↔ strictly_inside a b c p)
    ∧ (classify cartesian p [(a, b), (b, c), (c, a)] = OUTSIDE
        ↔ ¬ on_triangle a b c p ∧ ¬ strictly_inside a b c p) := by
  have hsum := cross_sum a b c p
  have hany : (∃ e ∈ [(a, b), (b, c), (c, a)], on_segment p e.1 e.2) ↔ on_triangle a b c p := by
    simp [on_triangle]
  have hin : strictly_inside a b c p ↔ tri_w a b c p ≠ 0 := by
    simp only [strictly_inside, tri_w]
    rcases side_by_triangle_cases a b p with ⟨h1, e1⟩ | ⟨h1, e1⟩ | ⟨h1, e1⟩ <;>
    rcases side_by_triangle_cases b c p with ⟨h2, e2⟩ | ⟨h2, e2⟩ | ⟨h2, e2⟩ <;>
    rcases side_by_triangle_cases c a p with ⟨h3, e3⟩ | ⟨h3, e3⟩ | ⟨h3, e3⟩ <;>
    rcases side_by_triangle_cases a b c with ⟨h4, e4⟩ | ⟨h4, e4⟩ | ⟨h4, e4⟩ <;>
    first
    | (exfalso; omega)
    | (rw [e1, e2, e3, e4]; split_ifs <;> first | (exfalso; omega) | decide)
  by_cases hb : on_triangle a b c p
  · have hns : ¬ strictly_inside a b c p := by
      intro hs
      rcases hb with h | h | h
      · have := h.1; rcases side_by_triangle_cases a b p with ⟨h1, e1⟩ | ⟨h1, e1⟩ | ⟨h1, e1⟩
        · omega
        · exact hs.1 e1
        · omega
      · have := h.1; rcases side_by_triangle_cases b c p with ⟨h1, e1⟩ | ⟨h1, e1⟩ | ⟨h1, e1⟩
        · omega
        · exact hs.2.1 e1
        · omega
      · have := h.1; rcases side_by_triangle_cases c a p with ⟨h1, e1⟩ | ⟨h1, e1⟩ | ⟨h1, e1⟩
        · omega
        · exact hs.2.2.1 e1
        · omega
    rw [classify_cartesian_eq]
    simp only [hany, hb, hns, if_true, BOUNDARY, INSIDE, OUTSIDE]
    decide
  · have h3 : ¬ on_segment p a b ∧ ¬ on_segment p b c ∧ ¬ on_segment p c a := by
      simpa [on_triangle, not_or] using hb
    have hs := triangle_sum a b c p h3.1 h3.2.1 h3.2.2
    rw [classify_cartesian_eq]
    simp only [hany, hb, if_false, List.map_cons, List.map_nil, List.sum_cons, List.sum_nil,
      contribution_cartesian, add_zero, ← add_assoc, hs, hin, BOUNDARY, INSIDE, OUTSIDE]
    by_cases hw : tri_w a b c p = 0 <;> simp [hw]

/-- C4, at the triangle (0,0),(4,0),(0,4): the point (1,1) is strictly inside and classified
INSIDE, the point (3,3) is neither inside nor on an edge and classified OUTSIDE. -/
theorem triangle_classification_witness :
    cross ⟨0, 0⟩ ⟨4, 0⟩ ⟨0, 4⟩ ≠ 0
    ∧ strictly_inside ⟨0, 0⟩ ⟨4, 0⟩ ⟨0, 4⟩ ⟨1, 1⟩
    ∧ classify cartesian ⟨1, 1⟩ [(⟨0, 0⟩, ⟨4, 0⟩), (⟨4, 0⟩, ⟨0, 4⟩), (⟨0, 4⟩, ⟨0, 0⟩)] = INSIDE
    ∧ ¬ on_triangle ⟨0, 0⟩ ⟨4, 0⟩ ⟨0, 4⟩ ⟨3, 3⟩
    ∧ ¬ strictly_inside ⟨0, 0⟩ ⟨4, 0⟩ ⟨0, 4⟩ ⟨3, 3⟩
    ∧ classify cartesian ⟨3, 3⟩ [(⟨0, 0⟩, ⟨4, 0⟩), (⟨4, 0⟩, ⟨0, 4⟩), (⟨0, 4⟩, ⟨0, 0⟩)] = OUTSIDE :=
  ⟨by decide, by decide,
    (triangle_classification ⟨0, 0⟩ ⟨4, 0⟩ ⟨0, 4⟩ ⟨1, 1⟩ (by decide)).2.1.2 (by decide),
    by decide, by decide,
    (triangle_classification ⟨0, 0⟩ ⟨4, 0⟩ ⟨0, 4⟩ ⟨3, 3⟩ (by decide)).2.2.2
      ⟨by decide, by decide⟩⟩

/-- C5: rotation invariance. For every point, every choice of the tag-dispatched pieces (in
particular every side-of-line function) and every edge list, `classify` gives the same
classification on the list and on each of its rotations. -/
theorem rotation_invariance (cs : cs_dispatch) (p : Point) (edges : List (Point × Point))
    (n : Nat) : classify cs p (edges.rotate n) = classify cs p edges := by
  have hp : (edges.rotate n).Perm edges := List.rotate_perm edges n
  have hsum : ((edges.rotate n).map (fun e => contribution cs p e.1 e.2)).sum
      = (edges.map (fun e => contribution cs p e.1 e.2)).sum := (hp.map _).sum_eq
  have hany : (∃ e ∈ edges.rotate n, touches_edge cs p e.1 e.2 = true)
      ↔ ∃ e ∈ edges, touches_edge cs p e.1 e.2 = true := by
    simp only [hp.mem_iff]
  rw [classify_eq, classify_eq, hsum]
  simp only [hany]

/-- C6: orientation invariance in the cartesian variant with the cross-product side.
`classify` gives the same classification on an edge list and on the reversed ring, and when
the point is on no edge the final count of the reversed ring is the negation of the
original one. -/
theorem orientation_invariance (p : Point) (edges : List (Point × Point)) :
    classify cartesian p (reverse_ring edges) = classify cartesian p edges
    ∧ ((∀ e ∈ edges, ¬ on_segment p e.1 e.2) →
        (run cartesian p (reverse_ring edges) counter.fresh).m_count
          = - (run cartesian p edges counter.fresh).m_count) := by
  constructor
  · rw [classify_cartesian_eq, classify_cartesian_eq, sum_contribution_reverse_ring]
    simp only [touch_reverse_ring, neg_eq_zero]
  · intro h
    have h2 : ∀ e ∈ reverse_ring edges, ¬ on_segment p e.1 e.2 := by
      intro e he hon
      obtain ⟨e2, hm, hon2⟩ := (touch_reverse_ring p edges).1 ⟨e, he, hon⟩
      exact h e2 hm hon2
    rw [run_cartesian_no_touch p edges h, run_cartesian_no_touch p _ h2,
      sum_contribution_reverse_ring]

/-- C6, at concrete inputs: the triangle (0,0),(4,0),(0,4) and the point (1,1), which is on
no edge. -/
theorem orientation_invariance_witness :
    (∀ e ∈ triangle, ¬ on_segment ⟨1, 1⟩ e.1 e.2)
    ∧ classify cartesian ⟨1, 1⟩ (reverse_ring triangle) = classify cartesian ⟨1, 1⟩ triangle
    ∧ (run cartesian ⟨1, 1⟩ (reverse_ring triangle) counter.fresh).m_count
        = - (run cartesian ⟨1, 1⟩ triangle counter.fresh).m_count :=
  ⟨by decide, (orientation_invariance ⟨1, 1⟩ triangle).1,
    (orientation_invariance ⟨1, 1⟩ triangle).2 (by decide)⟩

/-- C7: degenerate edges in the cartesian variant with the cross-product side. Inserting the
zero-length edge `(v, v)` at any position of an edge list that has `v` as an endpoint of one
of its edges does not change the classification; and a step on a zero-length edge leaves
`m_count` as it was, for every point and accumulator state. -/
theorem degenerate_edge (p v : Point) (l1 l2 : List (Point × Point))
    (hv : ∃ e ∈ l1 ++ l2, e.1 = v ∨ e.2 = v) :
    classify cartesian p (l1 ++ (v, v) :: l2) = classify cartesian p (l1 ++ l2)
    ∧ ∀ (q w : Point) (st : counter),
        (winding.apply cartesian q w w st).2.m_count = st.m_count := by
  refine ⟨?_, apply_degenerate⟩
  have hc : contribution cartesian p v v = 0 := by
    simpa [contribution, counter.fresh] using apply_degenerate p v counter.fresh
  have hsum : ((l1 ++ (v, v) :: l2).map (fun e => contribution cartesian p e.1 e.2)).sum
      = ((l1 ++ l2).map (fun e => contribution cartesian p e.1 e.2)).sum := by
    simp [hc]
  have hany : (∃ e ∈ l1 ++ (v, v) :: l2, on_segment p e.1 e.2)
      ↔ ∃ e ∈ l1 ++ l2, on_segment p e.1 e.2 := by
    constructor
    · rintro ⟨e, hm, hon⟩
      rcases List.mem_append.1 hm with hm | hm
      · exact ⟨e, List.mem_append_left _ hm, hon⟩
      · rcases List.mem_cons.1 hm with rfl | hm
        · -- the point is the vertex `v`, which is an endpoint of an edge of the list
          obtain ⟨e2, hm2, he2⟩ := hv
          have hpv : p = v := by
            obtain ⟨px, py⟩ := p
            obtain ⟨vx, vy⟩ := v
            simp only [on_segment, min_self, max_self] at hon
            obtain ⟨-, h1, h2, h3, h4⟩ := hon
            have hx : px = vx := le_antisymm h2 h1
            have hy : py = vy := le_antisymm h4 h3
            rw [hx, hy]
          refine ⟨e2, hm2, ?_⟩
          rcases he2 with h | h
          · rw [hpv, ← h]; exact on_segment_left e2.1 e2.2
          · rw [hpv, ← h]; exact on_segment_right e2.1 e2.2
        · exact ⟨e, List.mem_append_right _ hm, hon⟩
    · rintro ⟨e, hm, hon⟩
      rcases List.mem_append.1 hm with hm | hm
      · exact ⟨e, List.mem_append_left _ hm, hon⟩
      · exact ⟨e, List.mem_append_right _ (List.mem_cons_of_mem _ hm), hon⟩
  rw [classify_cartesian_eq, classify_cartesian_eq, hsum]
  simp only [hany]

/-- C7, at concrete inputs: the zero-length edge at the vertex (4,4) inserted after the first
edge of the square, for the point (2,2). -/
theorem degenerate_edge_witness :
    (∃ e ∈ [(⟨0, 0⟩, ⟨4, 0⟩)] ++ [(⟨4, 0⟩, ⟨4, 4⟩), (⟨4, 4⟩, ⟨0, 4⟩), (⟨0, 4⟩, ⟨0, 0⟩)],
        e.1 = (⟨4, 4⟩ : Point) ∨ e.2 = (⟨4, 4⟩ : Point))
    ∧ classify cartesian ⟨2, 2⟩
        ([(⟨0, 0⟩, ⟨4, 0⟩)] ++ (⟨4, 4⟩, ⟨4, 4⟩) ::
          [(⟨4, 0⟩, ⟨4, 4⟩), (⟨4, 4⟩, ⟨0, 4⟩), (⟨0, 4⟩, ⟨0, 0⟩)])
      = classify cartesian ⟨2, 2⟩
        ([(⟨0, 0⟩, ⟨4, 0⟩)] ++ [(⟨4, 0⟩, ⟨4, 4⟩), (⟨4, 4⟩, ⟨0, 4⟩), (⟨0, 4⟩, ⟨0, 0⟩)]) :=
  ⟨by decide,
    (degenerate_edge ⟨2, 2⟩ ⟨4, 4⟩ [(⟨0, 0⟩, ⟨4, 0⟩)]
      [(⟨4, 0⟩, ⟨4, 4⟩), (⟨4, 4⟩, ⟨0, 4⟩), (⟨0, 4⟩, ⟨0, 0⟩)] (by decide)).1⟩

/-- C8: on the square (0,0),(4,0),(4,4),(0,4) the point (2,2) is INSIDE, (5,5) is OUTSIDE,
(0,0) is BOUNDARY and (4,2) is BOUNDARY. -/
theorem square_scenario :
    classify cartesian ⟨2, 2⟩ square = INSIDE
    ∧ classify cartesian ⟨5, 5⟩ square = OUTSIDE
    ∧ classify cartesian ⟨0, 0⟩ square = BOUNDARY
    ∧ classify cartesian ⟨4, 2⟩ square = BOUNDARY := by
  decide

/-- C9: on the triangle (0,0),(4,0),(0,4) the point (1,1) is INSIDE and (3,3) is OUTSIDE. -/
theorem triangle_scenario :
    classify cartesian ⟨1, 1⟩ triangle = INSIDE
    ∧ classify cartesian ⟨3, 3⟩ triangle = OUTSIDE := by
  decide

/-- C10, as stated, fails: for the point (2,0) on the square the step that decides the run
does not resolve its side through `winding_side_equal`. -/
theorem bottom_edge_not_side_equal :
    ¬ (classify cartesian ⟨2, 0⟩ square = BOUNDARY
        ∧ ∃ d, deciding_step cartesian ⟨2, 0⟩ square counter.fresh = some d
            ∧ resolved_by_side_equal cartesian ⟨2, 0⟩ d.1 d.2) := by
  rintro ⟨-, d, hd, hr⟩
  have h : deciding_step cartesian ⟨2, 0⟩ square counter.fresh
      = some ((⟨0, 0⟩, ⟨4, 0⟩), counter.fresh) := by decide
  rw [h] at hd
  cases hd
  revert hr
  decide

/-- C10, amended: for the point (2,0) on the square `classify` returns BOUNDARY; the step
that decides it is the first edge (0,0) -> (4,0), taken from the fresh accumulator; its
count is +2, its side is the side-of-line strategy returning 0, and no edge of the ring has
a count of magnitude 1 for this point, so `winding_side_equal` is never called. -/
theorem bottom_edge_scenario :
    classify cartesian ⟨2, 0⟩ square = BOUNDARY
    ∧ deciding_step cartesian ⟨2, 0⟩ square counter.fresh
        = some ((⟨0, 0⟩, ⟨4, 0⟩), counter.fresh)
    ∧ count_of cartesian ⟨2, 0⟩ (⟨0, 0⟩, ⟨4, 0⟩) counter.fresh = 2
    ∧ cartesian.side ⟨0, 0⟩ ⟨4, 0⟩ ⟨2, 0⟩ = 0
    ∧ ∀ e ∈ square, count_of cartesian ⟨2, 0⟩ e counter.fresh ≠ 1
        ∧ count_of cartesian ⟨2, 0⟩ e counter.fresh ≠ -1 := by
  decide

/-- C11, as stated, fails: a driver run can end with `touches` true and a nonzero count.
For the point (2,2) the edge (0,0) -> (4,0) adds 2 and the edge (2,1) -> (2,3), aligned with
the point on both endpoints, then sets the flag through `check_touch` and keeps the 2; and a
step made after a touch (point (2,0), edge (0,0) -> (4,0), then edge (0,-1) -> (4,-1)) adds
to the count of a touched accumulator. -/
theorem touched_with_count :
    run cartesian ⟨2, 2⟩ [(⟨0, 0⟩, ⟨4, 0⟩), (⟨2, 1⟩, ⟨2, 3⟩)] counter.fresh = ⟨2, true⟩
    ∧ feed cartesian [(⟨2, 2⟩, ⟨0, 0⟩, ⟨4, 0⟩), (⟨2, 2⟩, ⟨2, 1⟩, ⟨2, 3⟩)] counter.fresh
        = ⟨2, true⟩
    ∧ feed cartesian [(⟨2, 0⟩, ⟨0, 0⟩, ⟨4, 0⟩), (⟨2, 0⟩, ⟨0, -1⟩, ⟨4, -1⟩)] counter.fresh
        = ⟨2, true⟩
    ∧ ¬ (∀ (cs : cs_dispatch) (steps : List (Point × Point × Point)),
          (feed cs steps counter.fresh).m_touches = true →
            (feed cs steps counter.fresh).m_count = 0) := by
  refine ⟨by decide, by decide, by decide, fun h => ?_⟩
  have := h cartesian [(⟨2, 2⟩, ⟨0, 0⟩, ⟨4, 0⟩), (⟨2, 2⟩, ⟨2, 1⟩, ⟨2, 3⟩)] (by decide)
  revert this
  decide

/-- C11, amended: for every choice of the tag-dispatched pieces, a step made from an
untouched accumulator that sets `touches` leaves the count 0, unless both endpoints of the
edge share the primary ordinate of the point (the touch comes from `check_touch`), in which
case the count is what it was before the step. Hence a driver run from a fresh accumulator
that ends touched was decided by one edge, taken from an untouched accumulator, and its
final count is 0 or, for such an aligned edge, the count accumulated before that edge. -/
theorem touched_count :
    (∀ (cs : cs_dispatch) (p s1 s2 : Point) (st : counter),
      st.m_touches = false → (winding.apply cs p s1 s2 st).2.m_touches = true →
        if s1.x = p.x ∧ s2.x = p.x then (winding.apply cs p s1 s2 st).2.m_count = st.m_count
        else (winding.apply cs p s1 s2 st).2.m_count = 0)
    ∧ (∀ (cs : cs_dispatch) (p : Point) (edges : List (Point × Point)),
      (run cs p edges counter.fresh).m_touches = true →
        ∃ e prev, deciding_step cs p edges counter.fresh = some (e, prev)
          ∧ prev.m_touches = false
          ∧ if e.1.x = p.x ∧ e.2.x = p.x then
              (run cs p edges counter.fresh).m_count = prev.m_count
            else (run cs p edges counter.fresh).m_count = 0) :=
  ⟨apply_touched_count, fun cs p edges h => run_touched_count cs p edges counter.fresh rfl h⟩

/-- C11, amended, at concrete inputs: the point (2,0) on the bottom edge of the square is
detected on the side-zero path and the count is 0; the point (2,2) with the aligned edge
(2,1) -> (2,3) keeps the count 2 that the step started from. -/
theorem touched_count_witness :
    (winding.apply cartesian ⟨2, 0⟩ ⟨0, 0⟩ ⟨4, 0⟩ ⟨5, false⟩).2.m_touches = true
    ∧ (winding.apply cartesian ⟨2, 0⟩ ⟨0, 0⟩ ⟨4, 0⟩ ⟨5, false⟩).2.m_count = 0
    ∧ (winding.apply cartesian ⟨2, 2⟩ ⟨2, 1⟩ ⟨2, 3⟩ ⟨2, false⟩).2.m_touches = true
    ∧ (winding.apply cartesian ⟨2, 2⟩ ⟨2, 1⟩ ⟨2, 3⟩ ⟨2, false⟩).2.m_count = 2 :=
  ⟨by decide,
    by simpa using touched_count.1 cartesian ⟨2, 0⟩ ⟨0, 0⟩ ⟨4, 0⟩ ⟨5, false⟩ rfl (by decide),
    by decide,
    by simpa using touched_count.1 cartesian ⟨2, 2⟩ ⟨2, 1⟩ ⟨2, 3⟩ ⟨2, false⟩ rfl (by decide)⟩

/-- C12: `touches` is monotonic. For every choice of the tag-dispatched pieces, point, edge
and accumulator, a step from a touched accumulator leaves it touched; hence a state that
classifies as BOUNDARY still classifies as BOUNDARY after any further sequence of steps. -/
theorem touches_monotonic :
    (∀ (cs : cs_dispatch) (p s1 s2 : Point) (st : counter),
        st.m_touches = true → (winding.apply cs p s1 s2 st).2.m_touches = true)
    ∧ (∀ (cs : cs_dispatch) (steps : List (Point × Point × Point)) (st : counter),
        winding.result st = BOUNDARY → winding.result (feed cs steps st) = BOUNDARY) := by
  refine ⟨apply_touches_mono, fun cs steps st h => ?_⟩
  have ht : st.m_touches = true := by
    by_contra hc
    revert h
    simp only [winding.result, counter.code, BOUNDARY]
    split_ifs <;> simp_all
  simp [winding.result, counter.code, BOUNDARY, feed_touched cs steps st ht]

/-- C12, at concrete inputs: a touched accumulator stays touched over a crossing edge, and
still classifies as BOUNDARY after two further steps. -/
theorem touches_monotonic_witness :
    (⟨0, true⟩ : counter).m_touches = true
    ∧ (winding.apply cartesian ⟨2, 2⟩ ⟨0, 0⟩ ⟨4, 0⟩ ⟨0, true⟩).2.m_touches = true
    ∧ winding.result ⟨0, true⟩ = BOUNDARY
    ∧ winding.result (feed cartesian
        [(⟨2, 2⟩, ⟨0, 0⟩, ⟨4, 0⟩), (⟨2, 2⟩, ⟨4, 0⟩, ⟨4, 4⟩)] ⟨0, true⟩) = BOUNDARY :=
  ⟨rfl, touches_monotonic.1 cartesian ⟨2, 2⟩ ⟨0, 0⟩ ⟨4, 0⟩ ⟨0, true⟩ rfl, by decide,
    touches_monotonic.2 cartesian [(⟨2, 2⟩, ⟨0, 0⟩, ⟨4, 0⟩), (⟨2, 2⟩, ⟨4, 0⟩, ⟨4, 4⟩)]
      ⟨0, true⟩ (by decide)⟩

/-- C13: the Edge Count Classifier in its cartesian form, as `check_segment` returns it. The
flags are `eq1 = (s1 == p)` and `eq2 = (s2 == p)` on the primary ordinates; the count is one
of -2, -1, 0, 1, 2; it is 0 when both flags hold; with only `eq1` it is 1 if `s2 > p` and -1
otherwise; with only `eq2` it is -1 if `s1 > p` and 1 otherwise; with neither it is 2 if
`s1 < p < s2`, -2 if `s2 < p < s1` and 0 otherwise. The magnitude is 1 exactly when exactly
one endpoint shares the primary ordinate of the point, and 2 exactly when the point is
strictly between the endpoints. -/
theorem edge_count_classifier (side : Point → Point → Point → Int) (p s1 s2 : Point)
    (st : counter) :
    (count_of (cartesian_with side) p (s1, s2) st ∈ ([-2, -1, 0, 1, 2] : List Int))
    ∧ (winding.check_segment (cartesian_with side) p s1 s2 st).2.2
        = (decide (s1.x = p.x), decide (s2.x = p.x))
    ∧ (s1.x = p.x → s2.x = p.x → count_of (cartesian_with side) p (s1, s2) st = 0)
    ∧ (s1.x = p.x → s2.x ≠ p.x →
        count_of (cartesian_with side) p (s1, s2) st = if s2.x > p.x then 1 else -1)
    ∧ (s1.x ≠ p.x → s2.x = p.x →
        count_of (cartesian_with side) p (s1, s2) st = if s1.x > p.x then -1 else 1)
    ∧ (s1.x ≠ p.x → s2.x ≠ p.x →
        count_of (cartesian_with side) p (s1, s2) st
          = if s1.x < p.x ∧ p.x < s2.x then 2 else if s2.x < p.x ∧ p.x < s1.x then -2 else 0)
    ∧ ((count_of (cartesian_with side) p (s1, s2) st = 1
          ∨ count_of (cartesian_with side) p (s1, s2) st = -1)
        ↔ ((s1.x = p.x ∧ s2.x ≠ p.x) ∨ (s1.x ≠ p.x ∧ s2.x = p.x)))
    ∧ ((count_of (cartesian_with side) p (s1, s2) st = 2
          ∨ count_of (cartesian_with side) p (s1, s2) st = -2)
        ↔ ((s1.x < p.x ∧ p.x < s2.x) ∨ (s2.x < p.x ∧ p.x < s1.x))) := by
  have hflags : (winding.check_segment (cartesian_with side) p s1 s2 st).2.2
      = (decide (s1.x = p.x), decide (s2.x = p.x)) := by
    simp only [winding.check_segment]
    split_ifs <;> rfl
  have hc : count_of (cartesian_with side) p (s1, s2) st
      = if s1.x = p.x ∧ s2.x = p.x then 0
        else if s1.x = p.x then (if p.x < s2.x then 1 else -1)
        else if s2.x = p.x then (if p.x < s1.x then -1 else 1)
        else if s1.x < p.x ∧ p.x < s2.x then 2
        else if s2.x < p.x ∧ p.x < s1.x then -2
        else 0 := by
    by_cases ha : s1.x = p.x ∧ s2.x = p.x
    · rw [if_pos ha]
      exact count_of_aligned (cartesian_with side) p s1 s2 st ha.1 ha.2
    · have hcc : (cartesian_with side).calculate_count = winding_calculate_count_cartesian :=
        rfl
      rw [if_neg ha, count_of_not_aligned (cartesian_with side) p s1 s2 st ha, hcc,
        calculate_count_cartesian_eq]
  rw [hc]
  refine ⟨?_, hflags, ?_, ?_, ?_, ?_, ?_, ?_⟩
  · split_ifs <;> decide
  · intro h1 h2; simp [h1, h2]
  · intro h1 h2; simp [h1, h2]
  · intro h1 h2; simp [h1, h2]
  · intro h1 h2; simp [h1, h2]
  · split_ifs <;> (constructor <;> intro h <;> first | omega | (simp at h))
  · split_ifs <;> (constructor <;> intro h <;> first | omega | (simp at h))

/-- C13, at concrete inputs: the point (2,0) is strictly between the endpoints of the edge
(0,0) -> (4,0) and the count is 2; it shares the primary ordinate of the first endpoint of
(2,1) -> (4,1) and the count is 1. -/
theorem edge_count_classifier_witness :
    count_of (cartesian_with side_by_triangle) ⟨2, 0⟩ (⟨0, 0⟩, ⟨4, 0⟩) counter.fresh = 2
    ∧ count_of (cartesian_with side_by_triangle) ⟨2, 0⟩ (⟨2, 1⟩, ⟨4, 1⟩) counter.fresh = 1 :=
  ⟨by simpa using (edge_count_classifier side_by_triangle ⟨2, 0⟩ ⟨0, 0⟩ ⟨4, 0⟩
      counter.fresh).2.2.2.2.2.1 (by decide) (by decide),
    by simpa using (edge_count_classifier side_by_triangle ⟨2, 0⟩ ⟨2, 1⟩ ⟨4, 1⟩
      counter.fresh).2.2.2.1 (by decide) (by decide)⟩

/-- C14: the on-edge case of the driver step. For every choice of the tag-dispatched pieces,
point, edge and accumulator, if the count of the edge is nonzero and the resolved side is 0,
then after `winding::apply` the flag `touches` is true, the count is 0 and the call returned
false, whatever the accumulator held before. -/
theorem on_edge_step (cs : cs_dispatch) (p s1 s2 : Point) (st : counter)
    (hc : count_of cs p (s1, s2) st ≠ 0) (hs : resolved_side cs p (s1, s2) st = 0) :
    (winding.apply cs p s1 s2 st).2.m_touches = true
    ∧ (winding.apply cs p s1 s2 st).2.m_count = 0
    ∧ (winding.apply cs p s1 s2 st).1 = false := by
  rw [apply_eq, if_neg hc, if_pos hs]
  exact ⟨rfl, rfl, rfl⟩

/-- C14, at concrete inputs: the point (2,0), the edge (0,0) -> (4,0) and an accumulator
holding the count 5. -/
theorem on_edge_step_witness :
    count_of cartesian ⟨2, 0⟩ (⟨0, 0⟩, ⟨4, 0⟩) ⟨5, false⟩ ≠ 0
    ∧ resolved_side cartesian ⟨2, 0⟩ (⟨0, 0⟩, ⟨4, 0⟩) ⟨5, false⟩ = 0
    ∧ (winding.apply cartesian ⟨2, 0⟩ ⟨0, 0⟩ ⟨4, 0⟩ ⟨5, false⟩).2.m_touches = true
    ∧ (winding.apply cartesian ⟨2, 0⟩ ⟨0, 0⟩ ⟨4, 0⟩ ⟨5, false⟩).2.m_count = 0
    ∧ (winding.apply cartesian ⟨2, 0⟩ ⟨0, 0⟩ ⟨4, 0⟩ ⟨5, false⟩).1 = false :=
  ⟨by decide, by decide,
    on_edge_step cartesian ⟨2, 0⟩ ⟨0, 0⟩ ⟨4, 0⟩ ⟨5, false⟩ (by decide) (by decide)⟩

/-- C15: the crossing case of the driver step. For every choice of the tag-dispatched
pieces, point, edge and accumulator: if the count of the edge is nonzero and the resolved
side is nonzero, `winding::apply` leaves `touches` as it was, adds the count to `m_count`
when `side * count > 0` and leaves `m_count` as it was when `side * count < 0`; and when the
count is 0 and the edge is not aligned with the point on both endpoints, the whole
accumulator is unchanged. -/
theorem crossing_step (cs : cs_dispatch) (p s1 s2 : Point) (st : counter) :
    (count_of cs p (s1, s2) st ≠ 0 → resolved_side cs p (s1, s2) st ≠ 0 →
      (winding.apply cs p s1 s2 st).2.m_touches = st.m_touches
      ∧ (resolved_side cs p (s1, s2) st * count_of cs p (s1, s2) st > 0 →
          (winding.apply cs p s1 s2 st).2.m_count
            = st.m_count + count_of cs p (s1, s2) st)
      ∧ (resolved_side cs p (s1, s2) st * count_of cs p (s1, s2) st < 0 →
          (winding.apply cs p s1 s2 st).2.m_count = st.m_count))
    ∧ (count_of cs p (s1, s2) st = 0 → ¬ (s1.x = p.x ∧ s2.x = p.x) →
        (winding.apply cs p s1 s2 st).2 = st) := by
  constructor
  · intro hc hs
    have ha : ¬ (s1.x = p.x ∧ s2.x = p.x) :=
      fun h => hc (count_of_aligned cs p s1 s2 st h.1 h.2)
    rw [apply_eq, if_neg hc, if_neg hs, check_segment_state, if_neg ha]
    refine ⟨?_, ?_, ?_⟩
    · split_ifs <;> rfl
    · intro h; rw [if_pos h]
    · intro h; rw [if_neg (by omega)]
  · intro hc ha
    rw [apply_eq, if_pos hc, check_segment_state, if_neg ha]

/-- C15, at concrete inputs: for the point (2,2) the edge (0,0) -> (4,0) has count 2 and
side 1 and adds 2; the edge (4,4) -> (0,4) has count -2 and side 1 and adds nothing; the
edge (4,0) -> (4,4) has count 0 and changes nothing. -/
theorem crossing_step_witness :
    (winding.apply cartesian ⟨2, 2⟩ ⟨0, 0⟩ ⟨4, 0⟩ ⟨5, false⟩).2.m_touches = false
    ∧ (winding.apply cartesian ⟨2, 2⟩ ⟨0, 0⟩ ⟨4, 0⟩ ⟨5, false⟩).2.m_count = 5 + 2
    ∧ (winding.apply cartesian ⟨2, 2⟩ ⟨4, 4⟩ ⟨0, 4⟩ ⟨5, false⟩).2.m_count = 5
    ∧ (winding.apply cartesian ⟨2, 2⟩ ⟨4, 0⟩ ⟨4, 4⟩ ⟨5, false⟩).2 = ⟨5, false⟩ :=
  ⟨((crossing_step cartesian ⟨2, 2⟩ ⟨0, 0⟩ ⟨4, 0⟩ ⟨5, false⟩).1 (by decide) (by decide)).1,
    ((crossing_step cartesian ⟨2, 2⟩ ⟨0, 0⟩ ⟨4, 0⟩ ⟨5, false⟩).1 (by decide) (by decide)).2.1
      (by decide),
    ((crossing_step cartesian ⟨2, 2⟩ ⟨4, 4⟩ ⟨0, 4⟩ ⟨5, false⟩).1 (by decide) (by decide)).2.2
      (by decide),
    (crossing_step cartesian ⟨2, 2⟩ ⟨4, 0⟩ ⟨4, 4⟩ ⟨5, false⟩).2 (by decide) (by decide)⟩

/-- C16: the Boundary Touch Detector. For every choice of the tag-dispatched pieces, point
and accumulator, and every edge whose two endpoints have the primary ordinate of the point,
`winding::apply` leaves `m_count` as it was and sets `touches` to its previous value or-ed
with the test that the secondary ordinate of the point lies in the closed interval between
the secondary ordinates of the endpoints; both ends are inclusive, so a point equal to
either endpoint is flagged. -/
theorem boundary_touch_detector (cs : cs_dispatch) (p s1 s2 : Point) (st : counter)
    (h1 : s1.x = p.x) (h2 : s2.x = p.x) :
    (winding.apply cs p s1 s2 st).2.m_count = st.m_count
    ∧ (winding.apply cs p s1 s2 st).2.m_touches
        = (st.m_touches || decide (min s1.y s2.y ≤ p.y ∧ p.y ≤ max s1.y s2.y))
    ∧ (p.y = s1.y → (winding.apply cs p s1 s2 st).2.m_touches = true)
    ∧ (p.y = s2.y → (winding.apply cs p s1 s2 st).2.m_touches = true) := by
  have hc := count_of_aligned cs p s1 s2 st h1 h2
  have hiff : ((s1.y ≤ p.y ∧ s2.y ≥ p.y) ∨ (s2.y ≤ p.y ∧ s1.y ≥ p.y))
      ↔ (min s1.y s2.y ≤ p.y ∧ p.y ≤ max s1.y s2.y) := by
    rw [min_le_iff, le_max_iff]
    constructor <;> intro h <;> omega
  rw [apply_eq, if_pos hc, check_segment_state, if_pos ⟨h1, h2⟩]
  refine ⟨rfl, ?_, ?_, ?_⟩
  · simp only [hiff]
  · intro h
    have : (s1.y ≤ p.y ∧ s2.y ≥ p.y) ∨ (s2.y ≤ p.y ∧ s1.y ≥ p.y) := by omega
    simp [this]
  · intro h
    have : (s1.y ≤ p.y ∧ s2.y ≥ p.y) ∨ (s2.y ≤ p.y ∧ s1.y ≥ p.y) := by omega
    simp [this]

/-- C16, at concrete inputs: the point (2,3) is the second endpoint of the edge
(2,1) -> (2,3); the count 7 is kept and the flag is set. -/
theorem boundary_touch_detector_witness :
    (winding.apply cartesian ⟨2, 3⟩ ⟨2, 1⟩ ⟨2, 3⟩ ⟨7, false⟩).2.m_count = 7
    ∧ (winding.apply cartesian ⟨2, 3⟩ ⟨2, 1⟩ ⟨2, 3⟩ ⟨7, false⟩).2.m_touches = true :=
  ⟨(boundary_touch_detector cartesian ⟨2, 3⟩ ⟨2, 1⟩ ⟨2, 3⟩ ⟨7, false⟩ rfl rfl).1,
    (boundary_touch_detector cartesian ⟨2, 3⟩ ⟨2, 1⟩ ⟨2, 3⟩ ⟨7, false⟩ rfl rfl).2.2.2 rfl⟩

/-- C17: the Equality Side-Resolver on its cartesian fast path. For a count of 1 or -1,
`winding_side_equal<cartesian_tag>::apply` returns 0 when the secondary ordinate of the
point equals that of the endpoint, `-count` when it is less and `count` when it is greater.
Hence in the driver an edge of count 1 or -1 adds its count when the point is strictly
above the aligned endpoint, changes nothing when it is strictly below, and records a touch
when the two are level; from a fresh accumulator the edge contributes its count exactly
when the point is strictly above the aligned endpoint. -/
theorem equality_side_resolver :
    (∀ (point se : Point) (count : Int), count = 1 ∨ count = -1 →
      (point.y = se.y → winding_side_equal_cartesian point se count = 0)
      ∧ (point.y < se.y → winding_side_equal_cartesian point se count = -count)
      ∧ (se.y < point.y → winding_side_equal_cartesian point se count = count))
    ∧ (∀ (side : Point → Point → Point → Int) (p s1 s2 : Point) (st : counter),
        count_of (cartesian_with side) p (s1, s2) st = 1
          ∨ count_of (cartesian_with side) p (s1, s2) st = -1 →
        ((aligned_endpoint (cartesian_with side) p (s1, s2) st).y < p.y →
          (winding.apply (cartesian_with side) p s1 s2 st).2
            = ⟨st.m_count + count_of (cartesian_with side) p (s1, s2) st, st.m_touches⟩)
        ∧ (p.y < (aligned_endpoint (cartesian_with side) p (s1, s2) st).y →
          (winding.apply (cartesian_with side) p s1 s2 st).2 = st)
        ∧ (p.y = (aligned_endpoint (cartesian_with side) p (s1, s2) st).y →
          (winding.apply (cartesian_with side) p s1 s2 st).2 = ⟨0, true⟩))
    ∧ (∀ (side : Point → Point → Point → Int) (p s1 s2 : Point),
        count_of (cartesian_with side) p (s1, s2) counter.fresh = 1
          ∨ count_of (cartesian_with side) p (s1, s2) counter.fresh = -1 →
        (contribution (cartesian_with side) p s1 s2
            = count_of (cartesian_with side) p (s1, s2) counter.fresh
          ↔ (aligned_endpoint (cartesian_with side) p (s1, s2) counter.fresh).y < p.y)) := by
  refine ⟨fun point se count _ => ⟨fun h => ?_, fun h => ?_, fun h => ?_⟩,
    magnitude_one_step, fun side p s1 s2 hc => ?_⟩
  · simp [winding_side_equal_cartesian, h]
  · simp [winding_side_equal_cartesian, h, h.ne]
  · simp [winding_side_equal_cartesian, h.ne', h.not_lt]
  · obtain ⟨hgt, hlt, heq⟩ := magnitude_one_step side p s1 s2 counter.fresh hc
    have hne : count_of (cartesian_with side) p (s1, s2) counter.fresh ≠ 0 := by omega
    simp only [contribution]
    rcases lt_trichotomy (aligned_endpoint (cartesian_with side) p (s1, s2) counter.fresh).y
      p.y with h | h | h
    · rw [hgt h]
      constructor
      · intro _; exact h
      · intro _; show counter.fresh.m_count + _ = _
        simp [counter.fresh]
    · rw [heq h.symm]
      constructor
      · intro h0; exact absurd h0.symm hne
      · intro h1; omega
    · rw [hlt h]
      constructor
      · intro h0; exact absurd h0.symm hne
      · intro h1; omega

/-- C17, at concrete inputs: for the point (2,3) the edge (2,1) -> (4,1) has count 1 and the
point is above the aligned endpoint (2,1), so the count 5 becomes 6; for the point (2,0) it
is below and the accumulator is unchanged. -/
theorem equality_side_resolver_witness :
    winding_side_equal_cartesian ⟨2, 3⟩ ⟨2, 1⟩ 1 = 1
    ∧ winding_side_equal_cartesian ⟨2, 0⟩ ⟨2, 1⟩ 1 = -1
    ∧ (winding.apply (cartesian_with side_by_triangle) ⟨2, 3⟩ ⟨2, 1⟩ ⟨4, 1⟩ ⟨5, false⟩).2
        = ⟨5 + count_of (cartesian_with side_by_triangle) ⟨2, 3⟩ (⟨2, 1⟩, ⟨4, 1⟩) ⟨5, false⟩,
            false⟩
    ∧ (winding.apply (cartesian_with side_by_triangle) ⟨2, 0⟩ ⟨2, 1⟩ ⟨4, 1⟩ ⟨5, false⟩).2
        = ⟨5, false⟩ :=
  ⟨(equality_side_resolver.1 ⟨2, 3⟩ ⟨2, 1⟩ 1 (Or.inl rfl)).2.2 (by decide),
    (equality_side_resolver.1 ⟨2, 0⟩ ⟨2, 1⟩ 1 (Or.inl rfl)).2.1 (by decide),
    (equality_side_resolver.2.1 side_by_triangle ⟨2, 3⟩ ⟨2, 1⟩ ⟨4, 1⟩ ⟨5, false⟩
      (by decide)).1 (by decide),
    (equality_side_resolver.2.1 side_by_triangle ⟨2, 0⟩ ⟨2, 1⟩ ⟨4, 1⟩ ⟨5, false⟩
      (by decide)).2.1 (by decide)⟩

/-- C18: the angular Edge Count Classifier across the antimeridian, in degrees with
longitude differences normalized into (-180, 180]. With the flags held fixed, the generic
`winding_calculate_count::apply` returns the same count when `p`, `s1` or `s2` is replaced
by the same value plus or minus 360. For `p = 180`, `s1 = 170` and no flag set it returns 2
both for `s2 = 190` and for `s2 = -170`, and -2 for the reversed edges, while the direct
comparison of the cartesian form returns 0 for `s2 = -170`. -/
theorem antimeridian_count :
    (∀ (p s1 s2 : Int) (eq1 eq2 : Bool),
      winding_calculate_count.apply normalize_lon_degree (p + 360) s1 s2 eq1 eq2
          = winding_calculate_count.apply normalize_lon_degree p s1 s2 eq1 eq2
      ∧ winding_calculate_count.apply normalize_lon_degree (p - 360) s1 s2 eq1 eq2
          = winding_calculate_count.apply normalize_lon_degree p s1 s2 eq1 eq2
      ∧ winding_calculate_count.apply normalize_lon_degree p (s1 + 360) s2 eq1 eq2
          = winding_calculate_count.apply normalize_lon_degree p s1 s2 eq1 eq2
      ∧ winding_calculate_count.apply normalize_lon_degree p (s1 - 360) s2 eq1 eq2
          = winding_calculate_count.apply normalize_lon_degree p s1 s2 eq1 eq2
      ∧ winding_calculate_count.apply normalize_lon_degree p s1 (s2 + 360) eq1 eq2
          = winding_calculate_count.apply normalize_lon_degree p s1 s2 eq1 eq2
      ∧ winding_calculate_count.apply normalize_lon_degree p s1 (s2 - 360) eq1 eq2
          = winding_calculate_count.apply normalize_lon_degree p s1 s2 eq1 eq2)
    ∧ winding_calculate_count.apply normalize_lon_degree 180 170 190 false false = 2
    ∧ winding_calculate_count.apply normalize_lon_degree 180 170 (-170) false false = 2
    ∧ winding_calculate_count.apply normalize_lon_degree 180 190 170 false false = -2
    ∧ winding_calculate_count.apply normalize_lon_degree 180 (-170) 170 false false = -2
    ∧ winding_calculate_count_cartesian 180 170 (-170) false false = 0 := by
  refine ⟨fun p s1 s2 eq1 eq2 => ?_, by decide, by decide, by decide, by decide, by decide⟩
  refine ⟨?_, ?_, ?_, ?_, ?_, ?_⟩ <;>
    simp only [winding_calculate_count.apply, (greater_shift _ _).1, (greater_shift _ _).2.1,
      (greater_shift _ _).2.2.1, (greater_shift _ _).2.2.2]

/-- C19: the cartesian specialisation of the Edge Count Classifier agrees with the generic
form wherever normalization does nothing. For every normalizer, all `p`, `s1`, `s2` and all
flags, if the normalizer is the identity on `s1 - p`, `p - s1`, `s2 - p` and `p - s2`, the
two forms return the same count; for the degree normalizer this holds whenever
`|s1 - p| < 180` and `|s2 - p| < 180`. -/
theorem cartesian_refines_generic :
    (∀ (normalize : Int → Int) (p s1 s2 : Int) (eq1 eq2 : Bool),
      normalize (s1 - p) = s1 - p → normalize (p - s1) = p - s1 →
      normalize (s2 - p) = s2 - p → normalize (p - s2) = p - s2 →
      winding_calculate_count.apply normalize p s1 s2 eq1 eq2
        = winding_calculate_count_cartesian p s1 s2 eq1 eq2)
    ∧ (∀ (p s1 s2 : Int) (eq1 eq2 : Bool), |s1 - p| < 180 → |s2 - p| < 180 →
      winding_calculate_count.apply normalize_lon_degree p s1 s2 eq1 eq2
        = winding_calculate_count_cartesian p s1 s2 eq1 eq2) := by
  have key : ∀ (normalize : Int → Int) (p s1 s2 : Int) (eq1 eq2 : Bool),
      normalize (s1 - p) = s1 - p → normalize (p - s1) = p - s1 →
      normalize (s2 - p) = s2 - p → normalize (p - s2) = p - s2 →
      winding_calculate_count.apply normalize p s1 s2 eq1 eq2
        = winding_calculate_count_cartesian p s1 s2 eq1 eq2 := by
    intro normalize p s1 s2 eq1 eq2 h1 h2 h3 h4
    simp only [winding_calculate_count.apply, winding_calculate_count_cartesian,
      greater_of_id normalize _ _ h1, greater_of_id normalize _ _ h2,
      greater_of_id normalize _ _ h3, greater_of_id normalize _ _ h4, Bool.and_eq_true,
      decide_eq_true_eq, gt_iff_lt]
  refine ⟨key, fun p s1 s2 eq1 eq2 h1 h2 => ?_⟩
  rw [abs_lt] at h1 h2
  exact key normalize_lon_degree p s1 s2 eq1 eq2
    (normalize_lon_degree_id _ (by omega) (by omega))
    (normalize_lon_degree_id _ (by omega) (by omega))
    (normalize_lon_degree_id _ (by omega) (by omega))
    (normalize_lon_degree_id _ (by omega) (by omega))

/-- C19, at concrete inputs: `p = 0`, `s1 = -10`, `s2 = 10` in degrees, no flag set: both
forms return 2. -/
theorem cartesian_refines_generic_witness :
    |(-10 : Int) - 0| < 180 ∧ |(10 : Int) - 0| < 180
    ∧ winding_calculate_count.apply normalize_lon_degree 0 (-10) 10 false false
        = winding_calculate_count_cartesian 0 (-10) 10 false false :=
  ⟨by decide, by decide,
    cartesian_refines_generic.2 0 (-10) 10 false false (by decide) (by decide)⟩

/-- C20: the early-stop signal. For every choice of the tag-dispatched pieces, point, edge
and accumulator, `winding::apply` returns true exactly when `touches` is false after the
step; so it returns false on every call made with a touched accumulator; and the driver that
stops at the first false return classifies as the driver that feeds every edge does. -/
theorem early_stop_signal :
    (∀ (cs : cs_dispatch) (p s1 s2 : Point) (st : counter),
        (winding.apply cs p s1 s2 st).1 = true
          ↔ (winding.apply cs p s1 s2 st).2.m_touches = false)
    ∧ (∀ (cs : cs_dispatch) (p s1 s2 : Point) (st : counter),
        st.m_touches = true → (winding.apply cs p s1 s2 st).1 = false)
    ∧ (∀ (cs : cs_dispatch) (p : Point) (edges : List (Point × Point)) (st : counter),
        winding.result (run cs p edges st)
          = winding.result (feed cs (steps_of p edges) st)) := by
  refine ⟨fun cs p s1 s2 st => ?_, fun cs p s1 s2 st h => ?_, fun cs p edges st => ?_⟩
  · rw [apply_fst]; simp
  · rw [apply_fst, apply_touches_mono cs p s1 s2 st h]; rfl
  · obtain ⟨h1, h2⟩ := run_feed cs p edges st
    by_cases ht : (run cs p edges st).m_touches = true
    · simp [winding.result, counter.code, ht, ← h1]
    · have ht2 : (run cs p edges st).m_touches = false := by simpa using ht
      rw [h2 ht2]

/-- C20, at concrete inputs: a call on a touched accumulator returns false, and on the
square with the point (2,0) the two drivers both classify BOUNDARY. -/
theorem early_stop_signal_witness :
    (winding.apply cartesian ⟨2, 2⟩ ⟨0, 0⟩ ⟨4, 0⟩ ⟨0, true⟩).1 = false
    ∧ winding.result (run cartesian ⟨2, 0⟩ square counter.fresh)
        = winding.result (feed cartesian (steps_of ⟨2, 0⟩ square) counter.fresh) :=
  ⟨early_stop_signal.2.1 cartesian ⟨2, 2⟩ ⟨0, 0⟩ ⟨4, 0⟩ ⟨0, true⟩ rfl,
    early_stop_signal.2.2 cartesian ⟨2, 0⟩ square counter.fresh⟩

/-- C21: no spurious boundary, in the cartesian variant with the cross-product side. If
`classify` returns BOUNDARY for a point and an edge list, the point lies on at least one
edge of the list, taken as a closed segment; and a `winding::apply` step from an accumulator
with `touches` false sets `touches` only when the point is on the edge of that step. -/
theorem no_spurious_boundary :
    (∀ (p : Point) (edges : List (Point × Point)),
      classify cartesian p edges = BOUNDARY → ∃ e ∈ edges, on_segment p e.1 e.2)
    ∧ (∀ (p s1 s2 : Point) (st : counter), st.m_touches = false →
      (winding.apply cartesian p s1 s2 st).2.m_touches = true → on_segment p s1 s2) := by
  refine ⟨fun p edges h => (classify_cartesian_boundary_iff p edges).1 h,
    fun p s1 s2 st hst h => ?_⟩
  obtain ⟨c, t⟩ := st
  simp only at hst
  subst hst
  rw [apply_untouched_flag] at h
  exact (touches_edge_cartesian_iff p s1 s2).1 h

/-- C21, at concrete inputs: the point (4,2) is classified BOUNDARY on the square and lies
on its second edge; the step on that edge from an accumulator holding the count 2 sets the
flag, and the point is on the edge. -/
theorem no_spurious_boundary_witness :
    classify cartesian ⟨4, 2⟩ square = BOUNDARY
    ∧ (∃ e ∈ square, on_segment ⟨4, 2⟩ e.1 e.2)
    ∧ (winding.apply cartesian ⟨4, 2⟩ ⟨4, 0⟩ ⟨4, 4⟩ ⟨2, false⟩).2.m_touches = true
    ∧ on_segment ⟨4, 2⟩ ⟨4, 0⟩ ⟨4, 4⟩ :=
  ⟨by decide, no_spurious_boundary.1 ⟨4, 2⟩ square (by decide), by decide,
    no_spurious_boundary.2 ⟨4, 2⟩ ⟨4, 0⟩ ⟨4, 4⟩ ⟨2, false⟩ rfl (by decide)⟩

end within
